import Mathlib

/-!
Verification of the PDM/CPM scheduling tool (`src/main.rs`).

Shallow embedding conventions:

* The Rust registry `HashMap<String, Rc<RefCell<Task>>>` is modelled as a
  `List Task` keyed by the `id` field; lookup is `List.find?` on the id.
  `HashMap` iteration order is unspecified in Rust, so the list (insertion)
  order is one legitimate refinement of it.
* The `Rc<RefCell<Task>>` edges (`pred`, `succ` vectors of shared pointers)
  are modelled as lists of task identifiers.  This identification is sound
  whenever identifiers are unique and every edge endpoint is present in the
  registry, which the theorems' hypotheses guarantee.
* `u32` values are modelled as `Nat`.  The one place where machine-width
  behaviour is load-bearing — the unsigned subtraction
  `late_finish - duration` in `propagate_backward` (spec section 4.4) — is
  modelled with an explicit guard that fails (returns `none`) on underflow,
  matching the checked-arithmetic behaviour of the test/debug profile that
  the spec mandates ("must abort loudly, not silently wrap").  The sentinel
  `u32::MAX` is kept as the literal `4294967295`.
* Panics (`assert!`, `panic!`, `.unwrap()`) are modelled as an error result
  carrying the registry state at the moment of the panic (`AddResult.err`),
  or as `none` for the propagation passes.
* The worklist loops are modelled with an explicit fuel argument; the fuel
  passed by `propagate_forward` / `propagate_backward` is a path-counting
  weight that is proved sufficient for well-formed graphs (on a cyclic
  graph the Rust loop diverges; the model returns `none`).
-/

namespace PDM

def START_ID : String := "START"

def END_ID : String := "END"

def u32Max : Nat := 4294967295

structure Task where
  id : String
  early_start : Nat
  early_finish : Nat
  late_start : Nat
  late_finish : Nat
  duration : Nat
  pred : List String
  succ : List String
deriving DecidableEq, Repr

abbrev RCTaskMap := List Task

/-- Model of `Task::new` (fields initialised as in the source: earliest
times 0, latest times `u32::MAX`). -/
def Task.new (id : String) (duration : Nat) : Task :=
  { id := id, early_start := 0, early_finish := 0,
    late_start := u32Max, late_finish := u32Max,
    duration := duration, pred := [], succ := [] }

/-- Model of `Task::is_critical`. -/
def Task.is_critical (t : Task) : Bool :=
  t.early_start == t.late_start && t.early_finish == t.late_finish

/-- Registry lookup by identifier (model of `map.get(id)`). -/
def mapGet (m : RCTaskMap) (v : String) : Option Task :=
  m.find? (fun t => t.id = v)

/-- In-place update of the task with the given identifier (model of
mutation through the `Rc<RefCell<_>>` handle found in the map). -/
def mapModify (m : RCTaskMap) (v : String) (f : Task → Task) : RCTaskMap :=
  m.map (fun t => if t.id = v then f t else t)

/-- Model of `map.insert(id, task)`: replaces the entry if the key is
present, otherwise adds a new entry. -/
def mapInsert (m : RCTaskMap) (t : Task) : RCTaskMap :=
  if (mapGet m t.id).isSome then mapModify m t.id (fun _ => t) else m ++ [t]

/-- The identifiers present in the registry, in insertion order. -/
def dom (m : RCTaskMap) : List String := m.map (fun t => t.id)

def predOf (m : RCTaskMap) (v : String) : List String :=
  match mapGet m v with
  | some t => t.pred
  | none => []

def succOf (m : RCTaskMap) (v : String) : List String :=
  match mapGet m v with
  | some t => t.succ
  | none => []

def durOf (m : RCTaskMap) (v : String) : Nat :=
  match mapGet m v with
  | some t => t.duration
  | none => 0

def esOf (m : RCTaskMap) (v : String) : Nat :=
  match mapGet m v with
  | some t => t.early_start
  | none => 0

def efOf (m : RCTaskMap) (v : String) : Nat :=
  match mapGet m v with
  | some t => t.early_finish
  | none => 0

def lsOf (m : RCTaskMap) (v : String) : Nat :=
  match mapGet m v with
  | some t => t.late_start
  | none => 0

def lfOf (m : RCTaskMap) (v : String) : Nat :=
  match mapGet m v with
  | some t => t.late_finish
  | none => 0

/-- Splitting a character list at every occurrence of the separator,
keeping empty pieces (the semantics of Rust's `str::split` with a
one-character pattern). -/
def splitCharList (c : Char) : List Char → List (List Char)
  | [] => [[]]
  | x :: xs =>
    match splitCharList c xs with
    | [] => [[]]
    | h :: t => if x = c then [] :: h :: t else (x :: h) :: t

/-- Model of Rust's `line.split(sep)` for a one-character separator. -/
def splitStr (c : Char) (s : String) : List String :=
  (splitCharList c s.data).map (fun l => String.mk l)

/-- Model of `str::parse::<u32>` for the duration field: optional leading
plus sign, at least one decimal digit, nothing else, value within `u32`
range. -/
def parseU32 (s : String) : Option Nat :=
  let digits :=
    match s.data with
    | '+' :: cs => cs
    | cs => cs
  if digits.isEmpty then none
  else if digits.all (fun c => c.isDigit) then
    let v := digits.foldl (fun a c => a * 10 + (c.toNat - 48)) 0
    if v ≤ u32Max then some v else none
  else none

/-- First-occurrence deduplication, modelling the collection of the
dependency list into a `HashSet` (whose iteration order Rust leaves
unspecified; the model fixes first-occurrence order). -/
def dedupAcc : List String → List String → List String
  | [], _ => []
  | x :: xs, seen =>
      if x ∈ seen then dedupAcc xs seen else x :: dedupAcc xs (x :: seen)

def dedup (l : List String) : List String := dedupAcc l []

/-- Result of `add_entry`: either the updated registry, or a panic message
together with the registry state at the moment of the panic. -/
inductive AddResult where
  | ok : RCTaskMap → AddResult
  | err : String → RCTaskMap → AddResult
deriving DecidableEq

def AddResult.isErr : AddResult → Bool
  | .ok _ => false
  | .err _ _ => true

/-- The dependency-wiring loop inside `add_entry`: for each dependency `d`
(in processed order), panic if `d` is absent, otherwise push `d` onto the
new task's `pred` vector and the new task onto `d`'s `succ` vector; after
the loop the new task is inserted into the map. -/
def wireDeps (t : Task) : List String → RCTaskMap → AddResult
  | [], m => .ok (mapInsert m t)
  | d :: ds, m =>
    match mapGet m d with
    | none => .err "Invalid task in dependency list." m
    | some _ =>
        wireDeps { t with pred := t.pred ++ [d] } ds
          (mapModify m d (fun dt => { dt with succ := dt.succ ++ [t.id] }))

/-- Model of `add_entry`.  The input line is split on spaces; a task line
is either `id dur` or `id dur deps` with `deps` a comma-separated list. -/
def add_entry (line : String) (map : RCTaskMap) : AddResult :=
  match splitStr ' ' line with
  | [id, dur] =>
    if (mapGet map id).isSome then .err "Duplicate IDs are not allowed." map
    else
      match parseU32 dur with
      | none => .err "Only integers allowed for duration." map
      | some duration => .ok (mapInsert map (Task.new id duration))
  | [id, dur, depStr] =>
    if (mapGet map id).isSome then .err "Duplicate IDs are not allowed." map
    else
      match parseU32 dur with
      | none => .err "Only integers allowed for duration." map
      | some duration => wireDeps (Task.new id duration) (dedup (splitStr ',' depStr)) map
  | _ =>
    .err "Tasks must have both an ID and duration and at most one dependency list." map

/-- Folding `add_entry` over the input lines (the ingestion loop in
`main`); `none` models a panic during ingestion. -/
def addEntries : List String → RCTaskMap → Option RCTaskMap
  | [], m => some m
  | line :: rest, m =>
    match add_entry line m with
    | .ok m' => addEntries rest m'
    | .err _ _ => none

/-- Model of `add_start`: every task with an empty `pred` vector gets
`START` pushed onto its `pred` and is pushed onto `START`'s `succ`; then
`START` is inserted. -/
def add_start (m : RCTaskMap) : RCTaskMap :=
  let roots := (m.filter (fun t => t.pred.isEmpty)).map (fun t => t.id)
  let m' := m.map (fun t => if t.pred.isEmpty then { t with pred := t.pred ++ [START_ID] } else t)
  mapInsert m' { Task.new START_ID 0 with succ := roots }

/-- Model of `add_end`: every task with an empty `succ` vector gets `END`
pushed onto its `succ` and is pushed onto `END`'s `pred`; then `END` is
inserted. -/
def add_end (m : RCTaskMap) : RCTaskMap :=
  let leaves := (m.filter (fun t => t.succ.isEmpty)).map (fun t => t.id)
  let m' := m.map (fun t => if t.succ.isEmpty then { t with succ := t.succ ++ [END_ID] } else t)
  mapInsert m' { Task.new END_ID 0 with pred := leaves }

/-- Rust's `iter.max()` followed by `Some v => v, None => 0`
(the earliest-start computation in `propagate_forward`). -/
def optMax (l : List Nat) : Nat :=
  match l.max? with
  | some v => v
  | none => 0

/-- Rust's `iter.min()` followed by `Some v => v, None => u32::MAX`
(the latest-finish computation in `propagate_backward`). -/
def optMin (l : List Nat) : Nat :=
  match l.min? with
  | some v => v
  | none => u32Max

/-- The body of the `propagate_forward` worklist loop, with explicit fuel.
Each iteration pops the front task, enqueues all of its successors,
recomputes its earliest-start as the maximum earliest-finish over its
predecessors (0 if it has none) and sets earliest-finish accordingly.
A missing map entry (`.unwrap()` panic) or fuel exhaustion (the Rust loop
diverging) yields `none`. -/
def propagateForwardAux : Nat → List String → RCTaskMap → Option RCTaskMap
  | _, [], m => some m
  | 0, _ :: _, _ => none
  | fuel + 1, cur :: rest, m =>
    match mapGet m cur with
    | none => none
    | some t =>
      let es := optMax (t.pred.map (fun u => efOf m u))
      propagateForwardAux fuel (rest ++ t.succ)
        (mapModify m cur
          (fun x => { x with early_start := es, early_finish := es + x.duration }))

/-- Path-counting weight of a node along successor edges (1 + sum of the
weights of its successors); the number of worklist dequeues rooted at the
node.  Computed with fuel; stable once the fuel exceeds the remaining
height of the DAG. -/
def weightF (m : RCTaskMap) : Nat → String → Nat
  | 0, _ => 1
  | k + 1, v => 1 + ((succOf m v).map (weightF m k)).sum

/-- Fuel supplied to the forward pass: the total number of dequeues the
loop performs on a well-formed anchored DAG. -/
def forwardFuel (m : RCTaskMap) : Nat := weightF m m.length START_ID

/-- Model of `propagate_forward`: run the worklist loop seeded with
`START`. -/
def propagate_forward (m : RCTaskMap) : Option RCTaskMap :=
  propagateForwardAux (forwardFuel m) [START_ID] m

/-- The body of the `propagate_backward` worklist loop, with explicit
fuel.  Each iteration pops the front task, enqueues all of its
predecessors, recomputes its latest-finish as the minimum latest-start
over its successors (`u32::MAX` if it has none) and sets latest-start by
the unsigned subtraction `late_finish - duration`; underflow of that
subtraction is a checked-arithmetic panic, modelled as `none`. -/
def propagateBackwardAux : Nat → List String → RCTaskMap → Option RCTaskMap
  | _, [], m => some m
  | 0, _ :: _, _ => none
  | fuel + 1, cur :: rest, m =>
    match mapGet m cur with
    | none => none
    | some t =>
      let late_finish := optMin (t.succ.map (fun s => lsOf m s))
      if t.duration ≤ late_finish then
        propagateBackwardAux fuel (rest ++ t.pred)
          (mapModify m cur
            (fun x => { x with late_finish := late_finish, late_start := late_finish - x.duration }))
      else none

/-- Path-counting weight along predecessor edges (mirror of `weightF`). -/
def weightB (m : RCTaskMap) : Nat → String → Nat
  | 0, _ => 1
  | k + 1, v => 1 + ((predOf m v).map (weightB m k)).sum

/-- Fuel supplied to the backward pass: total dequeues starting from the
predecessors of `END`. -/
def backwardFuel (m : RCTaskMap) : Nat :=
  ((predOf m END_ID).map (weightB m m.length)).sum

/-- The seeding writes of `propagate_backward`: `END`'s earliest-finish,
latest-start and latest-finish are all set to its earliest-start. -/
def seedB (m : RCTaskMap) : RCTaskMap :=
  mapModify m END_ID
    (fun x => { x with early_finish := x.early_start,
                       late_start := x.early_start,
                       late_finish := x.early_start })

/-- Model of `propagate_backward`: seed `END`'s earliest-finish,
latest-start and latest-finish with its earliest-start, then run the
worklist loop on `END`'s predecessors. -/
def propagate_backward (m : RCTaskMap) : Option RCTaskMap :=
  match mapGet m END_ID with
  | none => none
  | some e => propagateBackwardAux (backwardFuel (seedB m)) e.pred (seedB m)

/-- Stable insertion into a list sorted ascending by `early_start`
(ties keep the existing element first, as a stable sort does). -/
def insertByES (t : Task) : List Task → List Task
  | [] => [t]
  | h :: l => if h.early_start ≤ t.early_start then h :: insertByES t l else t :: h :: l

/-- Sorting by `early_start` (deterministic model of the stable
`sort_by` with the `early_start` comparator in `get_critical_tasks`). -/
def sortByES : List Task → List Task
  | [] => []
  | t :: l => insertByES t (sortByES l)

/-- The critical tasks, sorted ascending by `early_start`
(the intermediate task list of `get_critical_tasks`). -/
def criticalSorted (m : RCTaskMap) : List Task :=
  sortByES (m.filter (fun t => t.is_critical))

/-- Model of `get_critical_tasks`: filter the critical tasks, sort them by
earliest-start, return their identifiers. -/
def get_critical_tasks (m : RCTaskMap) : List String :=
  (criticalSorted m).map (fun t => t.id)

/-- Validity check for an input sequence, packaging the spec's input
contract: every line ingests successfully (dependencies present, no
duplicates, parseable durations) and no real task collides with an anchor
identifier (spec section 6); on success the anchored graph is returned. -/
def buildValid? (lines : List String) : Option RCTaskMap :=
  match addEntries lines [] with
  | none => none
  | some m0 =>
    if START_ID ∈ dom m0 ∨ END_ID ∈ dom m0 then none
    else some (add_end (add_start m0))

/-- A tiny valid input used to exhibit concrete runs: one task `A` of
duration 2 with no dependencies (Scenario A of the spec). -/
def gA : RCTaskMap := (buildValid? ["A 2"]).getD []

/-- The graph of `gA` after the forward pass. -/
def gA1 : RCTaskMap := (propagate_forward gA).getD []

/-- The graph of `gA` after both passes. -/
def gA2 : RCTaskMap := (propagate_backward gA1).getD []

/-- Extracts the registry carried by an `AddResult` (either outcome). -/
def AddResult.getOk : AddResult → RCTaskMap
  | .ok m => m
  | .err _ m => m

/-- A one-task registry (task `A`, duration 2) used as a concrete state
for exhibiting the ingestion behaviours. -/
def mA : RCTaskMap := [Task.new "A" 2]

/-- The registry obtained by ingesting `B 1 A` into `mA`. -/
def mB : RCTaskMap := (add_entry "B 1 A" mA).getOk

/-- The symmetric-edge invariant of spec section 3: for tasks `u`, `v` in
the registry, `u` is listed as a predecessor of `v` exactly when `v` is
listed as a successor of `u`. -/
def SymEdges (m : RCTaskMap) : Prop :=
  ∀ u ∈ dom m, ∀ v ∈ dom m, (u ∈ predOf m v ↔ v ∈ succOf m u)

/-! Specification-side definitions used to state and prove properties of
the propagation passes.  They are computed by recursion with a fuel
argument; once the fuel exceeds the longest dependency chain they are
stable, which is proved below from a topological rank. -/

/-- Position of an element in a list (length of the list if absent). -/
def idxOf (v : String) : List String → Nat
  | [] => 0
  | x :: xs => if x = v then 0 else idxOf v xs + 1

/-- Topological rank of an anchored graph built from the pre-anchor
registry `m0`: `START` first, real tasks in insertion order, `END` last. -/
def rankOf (m0 : RCTaskMap) (v : String) : Nat :=
  if v = START_ID then 0
  else if v = END_ID then m0.length + 1
  else idxOf v (dom m0) + 1

/-- Fuel-bounded earliest-start: the maximum over all predecessors `u` of
(earliest-start of `u`) + (duration of `u`), 0 when there are none. -/
def esAux (g : RCTaskMap) : Nat → String → Nat
  | 0, _ => 0
  | k + 1, v => optMax ((predOf g v).map (fun u => esAux g k u + durOf g u))

/-- The earliest-start value determined by the graph structure. -/
def specEs (g : RCTaskMap) (v : String) : Nat := esAux g g.length v

/-- The earliest-finish value determined by the graph structure. -/
def specEf (g : RCTaskMap) (v : String) : Nat := specEs g v + durOf g v

/-- Fuel-bounded latest-finish with project completion time `M`: `M` for
a task without successors, otherwise the minimum latest-start over the
successors. -/
def lfAux (g : RCTaskMap) (M : Nat) : Nat → String → Nat
  | 0, _ => 0
  | k + 1, v =>
    match succOf g v with
    | [] => M
    | l => optMin (l.map (fun s => lfAux g M k s - durOf g s))

/-- The latest-finish value determined by the graph structure and the
completion time `M`. -/
def specLf (g : RCTaskMap) (M : Nat) (v : String) : Nat := lfAux g M g.length v

/-- The latest-start value determined by the graph structure and `M`. -/
def specLs (g : RCTaskMap) (M : Nat) (v : String) : Nat := specLf g M v - durOf g v

/-- Fuel-bounded forward depth: length of the longest predecessor chain
ending at the node (0 for a node without predecessors). -/
def depthFAux (g : RCTaskMap) : Nat → String → Nat
  | 0, _ => 0
  | k + 1, v => optMax ((predOf g v).map (fun u => depthFAux g k u + 1))

def depthF (g : RCTaskMap) (v : String) : Nat := depthFAux g g.length v

/-- Fuel-bounded backward depth: length of the longest successor chain
starting at the node (0 for a node without successors). -/
def depthBAux (g : RCTaskMap) : Nat → String → Nat
  | 0, _ => 0
  | k + 1, v => optMax ((succOf g v).map (fun s => depthBAux g k s + 1))

def depthB (g : RCTaskMap) (v : String) : Nat := depthBAux g g.length v

/-- Reachability along dependency edges: `ReachF g u v` holds when there
is a path from `u` to `v` each of whose steps goes from a predecessor to
a dependent. -/
inductive ReachF (g : RCTaskMap) : String → String → Prop where
  | refl (v : String) : ReachF g v v
  | tail {u w v : String} : ReachF g u w → w ∈ predOf g v → ReachF g u v

/-- Reachability along reversed edges: `ReachB g u v` holds when there is
a path from `v` to `u` following successor edges (stated from the `u`
side to mirror `ReachF`). -/
inductive ReachB (g : RCTaskMap) : String → String → Prop where
  | refl (v : String) : ReachB g v v
  | tail {u w v : String} : ReachB g u w → w ∈ succOf g v → ReachB g u v

/-- A forward depth chain: a path along successor edges on which the
forward depth increases by exactly one at every step. -/
inductive DCF (g : RCTaskMap) : String → String → Prop where
  | refl (v : String) : DCF g v v
  | head {u s v : String} :
      s ∈ succOf g u → depthF g s = depthF g u + 1 → DCF g s v → DCF g u v

/-- A backward depth chain: a path along predecessor edges on which the
backward depth increases by exactly one at every step. -/
inductive DCB (g : RCTaskMap) : String → String → Prop where
  | refl (v : String) : DCB g v v
  | head {u p v : String} :
      p ∈ predOf g u → depthB g p = depthB g u + 1 → DCB g p v → DCB g u v

/-- Structural well-formedness of an anchored task graph, with a
topological rank `ρ`: unique identifiers, edges closed in the registry
and symmetric, rank increasing along edges and bounded by the number of
tasks, `START` the unique source and `END` the unique sink, both anchors
of duration 0. -/
structure WFG (g : RCTaskMap) (ρ : String → Nat) : Prop where
  nodup : (dom g).Nodup
  closedP : ∀ v ∈ dom g, ∀ u ∈ predOf g v, u ∈ dom g
  closedS : ∀ v ∈ dom g, ∀ u ∈ succOf g v, u ∈ dom g
  sym : ∀ u ∈ dom g, ∀ v ∈ dom g, (u ∈ predOf g v ↔ v ∈ succOf g u)
  rankP : ∀ v ∈ dom g, ∀ u ∈ predOf g v, ρ u < ρ v
  rankBound : ∀ v ∈ dom g, ρ v < g.length
  startMem : START_ID ∈ dom g
  startPred : predOf g START_ID = []
  predNE : ∀ v ∈ dom g, v ≠ START_ID → predOf g v ≠ []
  endMem : END_ID ∈ dom g
  endSucc : succOf g END_ID = []
  succNE : ∀ v ∈ dom g, v ≠ END_ID → succOf g v ≠ []
  durStart : durOf g START_ID = 0
  durEnd : durOf g END_ID = 0

/-- Invariant of the pre-anchor registry maintained by `add_entry`:
unique identifiers, closed and symmetric edges, every dependency inserted
before its dependent (positions strictly increase along edges), and all
time fields still at their initial values. -/
structure PreWF (m : RCTaskMap) : Prop where
  nodup : (dom m).Nodup
  closedP : ∀ v ∈ dom m, ∀ u ∈ predOf m v, u ∈ dom m
  closedS : ∀ v ∈ dom m, ∀ u ∈ succOf m v, u ∈ dom m
  sym : ∀ u ∈ dom m, ∀ v ∈ dom m, (u ∈ predOf m v ↔ v ∈ succOf m u)
  posRank : ∀ v ∈ dom m, ∀ u ∈ predOf m v, idxOf u (dom m) < idxOf v (dom m)
  initVals : ∀ t ∈ m, t.early_start = 0 ∧ t.early_finish = 0 ∧
    t.late_start = u32Max ∧ t.late_finish = u32Max

/-- The running registry `m` has the same identifiers, edges and
durations as the reference structure `g` (the propagation passes mutate
only the four time fields). -/
def sameStruct (g m : RCTaskMap) : Prop :=
  dom m = dom g ∧ (∀ v, predOf m v = predOf g v) ∧
    (∀ v, succOf m v = succOf g v) ∧ (∀ v, durOf m v = durOf g v)

/-- One iteration of the forward worklist loop applied to the task `cur`. -/
def stepF (m : RCTaskMap) (cur : String) : RCTaskMap :=
  let es := optMax ((predOf m cur).map (fun u => efOf m u))
  mapModify m cur (fun x => { x with early_start := es, early_finish := es + x.duration })

/-- One iteration of the backward worklist loop applied to the task `cur`. -/
def stepB (m : RCTaskMap) (cur : String) : RCTaskMap :=
  let lf := optMin ((succOf m cur).map (fun s => lsOf m s))
  mapModify m cur (fun x => { x with late_finish := lf, late_start := lf - x.duration })

/-- The task `v` holds its structurally determined earliest times. -/
def okF (g m : RCTaskMap) (v : String) : Prop :=
  esOf m v = specEs g v ∧ efOf m v = specEf g v

/-- The task `v` holds its structurally determined latest times. -/
def okB (g : RCTaskMap) (M : Nat) (m : RCTaskMap) (v : String) : Prop :=
  lsOf m v = specLs g M v ∧ lfOf m v = specLf g M v

/-- Every task on a dependency path into `v` (including `v`) holds its
final earliest times; such tasks are never changed again by the forward
pass. -/
def doneF (g m : RCTaskMap) (v : String) : Prop :=
  ∀ u, ReachF g u v → okF g m u

/-- Every task reachable from `v` along successor edges holds its final
latest times. -/
def doneB (g : RCTaskMap) (M : Nat) (m : RCTaskMap) (v : String) : Prop :=
  ∀ u, ReachB g u v → okB g M m u

/-- Some worklist entry sits at its exact forward depth and starts a
depth chain leading to `v` (so the final recomputation of `v` is still
pending). -/
def pendF (g : RCTaskMap) (wl : List String) (L : List Nat) (v : String) : Prop :=
  ∃ p ∈ wl.zip L, p.2 = depthF g p.1 ∧ DCF g p.1 v

def pendB (g : RCTaskMap) (wl : List String) (L : List Nat) (v : String) : Prop :=
  ∃ p ∈ wl.zip L, p.2 = depthB g p.1 ∧ DCB g p.1 v

/-- Invariant of the forward worklist loop, with ghost breadth-first
levels `L`: levels are nondecreasing and spread over at most two
consecutive values, worklist entries are registry members, and every task
is either finished or has a pending full-depth recomputation. -/
def InvF (g : RCTaskMap) (wl : List String) (L : List Nat) (m : RCTaskMap) : Prop :=
  wl.length = L.length ∧ L.Sorted (· ≤ ·) ∧ (∀ a ∈ L, ∀ b ∈ L, a ≤ b + 1) ∧
    (∀ v ∈ wl, v ∈ dom g) ∧ (∀ v ∈ dom g, doneF g m v ∨ pendF g wl L v)

/-- Invariant of the backward worklist loop.  In addition to the mirror
of `InvF` it records that `END` is never enqueued and that every stored
latest-start is at least its final value (which is what keeps the
unsigned subtraction from underflowing). -/
def InvB (g : RCTaskMap) (M : Nat) (wl : List String) (L : List Nat) (m : RCTaskMap) : Prop :=
  wl.length = L.length ∧ L.Sorted (· ≤ ·) ∧ (∀ a ∈ L, ∀ b ∈ L, a ≤ b + 1) ∧
    (∀ v ∈ wl, v ∈ dom g ∧ v ≠ END_ID) ∧
    (∀ v ∈ dom g, specLs g M v ≤ lsOf m v) ∧
    (∀ v ∈ dom g, doneB g M m v ∨ pendB g wl L v)

/-- Total number of dequeues the forward loop will still perform. -/
def totalWF (g : RCTaskMap) (wl : List String) : Nat :=
  (wl.map (weightF g g.length)).sum

/-- Total number of dequeues the backward loop will still perform. -/
def totalWB (g : RCTaskMap) (wl : List String) : Nat :=
  (wl.map (weightB g g.length)).sum

/-! ### List utilities -/

theorem map_congr_mem {α β : Type} {l : List α} {f f' : α → β}
    (h : ∀ a ∈ l, f a = f' a) : l.map f = l.map f' := by
  induction l with
  | nil => rfl
  | cons a l ih =>
      simp only [List.map_cons]
      rw [h a (by simp), ih (fun b hb => h b (by simp [hb]))]

theorem foldl_max_eq (l : List Nat) : ∀ a : Nat, l.foldl max a = max a (l.foldr max 0) := by
  induction l with
  | nil => intro a; simp
  | cons b l ih =>
      intro a
      simp only [List.foldl_cons, List.foldr_cons, ih (max a b)]
      omega

theorem optMax_eq_foldr (l : List Nat) : optMax l = l.foldr max 0 := by
  cases l with
  | nil => rfl
  | cons a l =>
      show l.foldl max a = _
      rw [foldl_max_eq]
      simp [List.foldr_cons]

theorem optMax_cons (a : Nat) (l : List Nat) : optMax (a :: l) = max a (optMax l) := by
  rw [optMax_eq_foldr, optMax_eq_foldr]
  rfl

theorem le_optMax {a : Nat} {l : List Nat} (h : a ∈ l) : a ≤ optMax l := by
  induction l with
  | nil => cases h
  | cons b l ih =>
      rw [optMax_cons]
      rcases List.mem_cons.1 h with rfl | h'
      · exact Nat.le_max_left _ _
      · exact le_trans (ih h') (Nat.le_max_right _ _)

theorem optMax_le {c : Nat} {l : List Nat} (h : ∀ a ∈ l, a ≤ c) : optMax l ≤ c := by
  induction l with
  | nil => exact Nat.zero_le c
  | cons b l ih =>
      rw [optMax_cons]
      exact max_le (h b (by simp)) (ih (fun a ha => h a (by simp [ha])))

theorem optMax_mem {l : List Nat} (h : l ≠ []) : optMax l ∈ l := by
  induction l with
  | nil => exact absurd rfl h
  | cons b l ih =>
      rw [optMax_cons]
      cases l with
      | nil => simp [optMax]
      | cons c l' =>
          rcases le_total (optMax (c :: l')) b with hle | hle
          · simp [max_eq_left hle]
          · rw [max_eq_right hle]
            exact List.mem_cons_of_mem _ (ih (by simp))

theorem foldl_min_le_init (l : List Nat) : ∀ a : Nat, l.foldl min a ≤ a := by
  induction l with
  | nil => intro a; exact le_refl a
  | cons b l ih =>
      intro a
      exact le_trans (ih (min a b)) (Nat.min_le_left a b)

theorem foldl_min_le_mem (l : List Nat) : ∀ a : Nat, ∀ x ∈ l, l.foldl min a ≤ x := by
  induction l with
  | nil => intro a x hx; cases hx
  | cons b l ih =>
      intro a x hx
      rcases List.mem_cons.1 hx with rfl | hx'
      · exact le_trans (foldl_min_le_init l (min a x)) (Nat.min_le_right a x)
      · exact ih (min a b) x hx'

theorem le_foldl_min {c : Nat} (l : List Nat) : ∀ a : Nat, c ≤ a → (∀ x ∈ l, c ≤ x) →
    c ≤ l.foldl min a := by
  induction l with
  | nil => intro a ha _; exact ha
  | cons b l ih =>
      intro a ha h
      exact ih (min a b) (le_min ha (h b (by simp))) (fun x hx => h x (by simp [hx]))

theorem optMin_le {a : Nat} {l : List Nat} (h : a ∈ l) : optMin l ≤ a := by
  cases l with
  | nil => cases h
  | cons b l =>
      show l.foldl min b ≤ a
      rcases List.mem_cons.1 h with rfl | h'
      · exact foldl_min_le_init l a
      · exact foldl_min_le_mem l b a h'

theorem le_optMin {c : Nat} {l : List Nat} (hne : l ≠ []) (h : ∀ a ∈ l, c ≤ a) :
    c ≤ optMin l := by
  cases l with
  | nil => exact absurd rfl hne
  | cons b l =>
      exact le_foldl_min l b (h b (by simp)) (fun x hx => h x (by simp [hx]))

theorem foldl_min_mono {α : Type} {f f' : α → Nat} (l : List α) :
    ∀ a a' : Nat, a ≤ a' → (∀ x ∈ l, f x ≤ f' x) →
      ((l.map f).foldl min a) ≤ ((l.map f').foldl min a') := by
  induction l with
  | nil => intro a a' ha _; exact ha
  | cons b l ih =>
      intro a a' ha h
      simp only [List.map_cons, List.foldl_cons]
      exact ih _ _ (min_le_min ha (h b (by simp))) (fun x hx => h x (by simp [hx]))

theorem optMin_map_mono {α : Type} {l : List α} {f f' : α → Nat}
    (h : ∀ a ∈ l, f a ≤ f' a) : optMin (l.map f) ≤ optMin (l.map f') := by
  cases l with
  | nil => exact le_refl _
  | cons b l =>
      show ((l.map f).foldl min (f b)) ≤ ((l.map f').foldl min (f' b))
      exact foldl_min_mono l _ _ (h b (by simp)) (fun x hx => h x (by simp [hx]))

theorem mem_zip_replicate {α β : Type} {a : α} {l : List α} (h : a ∈ l) (c : β) :
    (a, c) ∈ l.zip (List.replicate l.length c) := by
  induction l with
  | nil => cases h
  | cons b l ih =>
      rcases List.mem_cons.1 h with rfl | h'
      · simp [List.replicate]
      · simp only [List.length_cons, List.replicate, List.zip_cons_cons]
        exact List.mem_cons_of_mem _ (ih h')

/-! ### Registry lemmas -/

theorem mapGet_id {m : RCTaskMap} {t : Task} {v : String} (h : mapGet m v = some t) :
    t.id = v ∧ t ∈ m := by
  refine ⟨?_, List.mem_of_find?_eq_some h⟩
  have := List.find?_some h
  simpa using this

theorem mem_dom_iff {m : RCTaskMap} {v : String} :
    v ∈ dom m ↔ ∃ t, mapGet m v = some t := by
  constructor
  · intro h
    rcases List.mem_map.1 h with ⟨t, ht, rfl⟩
    cases hg : mapGet m t.id with
    | some t' => exact ⟨t', rfl⟩
    | none =>
        exfalso
        have h2 := List.find?_eq_none.1 hg t ht
        simp at h2
  · rintro ⟨t, ht⟩
    rcases mapGet_id ht with ⟨rfl, hmem⟩
    exact List.mem_map.2 ⟨t, hmem, rfl⟩

theorem mapGet_isSome_iff {m : RCTaskMap} {v : String} :
    (mapGet m v).isSome = true ↔ v ∈ dom m := by
  rw [mem_dom_iff, Option.isSome_iff_exists]

theorem mapGet_eq_none_iff {m : RCTaskMap} {v : String} :
    mapGet m v = none ↔ v ∉ dom m := by
  constructor
  · intro h hv
    rcases mem_dom_iff.1 hv with ⟨t, ht⟩
    rw [h] at ht
    cases ht
  · intro h
    cases hg : mapGet m v with
    | none => rfl
    | some t => exact absurd (mem_dom_iff.2 ⟨t, hg⟩) h

theorem mapGet_of_mem {m : RCTaskMap} (hnd : (dom m).Nodup) {t : Task} (ht : t ∈ m) :
    mapGet m t.id = some t := by
  induction m with
  | nil => cases ht
  | cons s m ih =>
      have hnd2 : s.id ∉ dom m ∧ (dom m).Nodup :=
        List.nodup_cons.1 (show (s.id :: dom m).Nodup from hnd)
      rcases List.mem_cons.1 ht with rfl | h'
      · exact List.find?_cons_of_pos _ (by simp)
      · have hne : ¬ s.id = t.id := by
          intro he
          apply hnd2.1
          rw [he]
          exact List.mem_map.2 ⟨t, h', rfl⟩
        rw [mapGet, List.find?_cons_of_neg _ (by simpa using hne)]
        exact ih hnd2.2 h'

theorem mapGet_modify {m : RCTaskMap} {w : String} {f : Task → Task}
    (hf : ∀ t, (f t).id = t.id) (v : String) :
    mapGet (mapModify m w f) v = if v = w then (mapGet m v).map f else mapGet m v := by
  induction m with
  | nil => by_cases h : v = w <;> simp [mapGet, mapModify, h]
  | cons t m ih =>
      simp only [mapModify, List.map_cons] at *
      by_cases htv : t.id = v
      · by_cases hvw : v = w
        · subst hvw
          rw [if_pos rfl] at *
          rw [mapGet, List.find?_cons_of_pos _
                (by simp only [if_pos htv, hf t]; simpa using htv),
              mapGet, List.find?_cons_of_pos _ (by simpa using htv), if_pos htv]
          rfl
        · have htw : ¬ t.id = w := fun he => hvw (htv.symm.trans he)
          rw [if_neg hvw] at *
          rw [mapGet, List.find?_cons_of_pos _
                (by simp only [if_neg htw]; simpa using htv),
              mapGet, List.find?_cons_of_pos _ (by simpa using htv), if_neg htw]
      · by_cases htw : t.id = w
        · rw [mapGet, List.find?_cons_of_neg _
                (by simp only [if_pos htw, hf t]; simpa using htv),
              show mapGet (t :: m) v = mapGet m v from
                List.find?_cons_of_neg _ (by simpa using htv)] at *
          exact ih
        · rw [mapGet, List.find?_cons_of_neg _
                (by simp only [if_neg htw]; simpa using htv),
              show mapGet (t :: m) v = mapGet m v from
                List.find?_cons_of_neg _ (by simpa using htv)] at *
          exact ih

theorem dom_modify {m : RCTaskMap} {w : String} {f : Task → Task}
    (hf : ∀ t, (f t).id = t.id) : dom (mapModify m w f) = dom m := by
  simp only [dom, mapModify, List.map_map]
  apply map_congr_mem
  intro t _
  by_cases h : t.id = w <;> simp [h, hf t]

theorem mapGet_append (m m' : RCTaskMap) (v : String) :
    mapGet (m ++ m') v = (mapGet m v).or (mapGet m' v) := by
  simp [mapGet, List.find?_append]

theorem dom_append (m m' : RCTaskMap) : dom (m ++ m') = dom m ++ dom m' := by
  simp [dom]

theorem mapInsert_fresh {m : RCTaskMap} {t : Task} (h : t.id ∉ dom m) :
    mapInsert m t = m ++ [t] := by
  have : mapGet m t.id = none := mapGet_eq_none_iff.2 h
  simp [mapInsert, this]

/-! ### Lemmas about the worklist step functions -/

theorem stepF_get (m : RCTaskMap) (cur v : String) :
    mapGet (stepF m cur) v =
      if v = cur then
        (mapGet m v).map (fun x =>
          { x with early_start := optMax ((predOf m cur).map (fun u => efOf m u)),
                   early_finish := optMax ((predOf m cur).map (fun u => efOf m u)) + x.duration })
      else mapGet m v := by
  simp only [stepF]
  apply mapGet_modify
  intro t
  rfl

theorem stepB_get (m : RCTaskMap) (cur v : String) :
    mapGet (stepB m cur) v =
      if v = cur then
        (mapGet m v).map (fun x =>
          { x with late_finish := optMin ((succOf m cur).map (fun s => lsOf m s)),
                   late_start := optMin ((succOf m cur).map (fun s => lsOf m s)) - x.duration })
      else mapGet m v := by
  simp only [stepB]
  apply mapGet_modify
  intro t
  rfl

theorem dom_stepF (m : RCTaskMap) (cur : String) : dom (stepF m cur) = dom m := by
  simp only [stepF]
  apply dom_modify
  intro t
  rfl

theorem dom_stepB (m : RCTaskMap) (cur : String) : dom (stepB m cur) = dom m := by
  simp only [stepB]
  apply dom_modify
  intro t
  rfl

theorem predOf_stepF (m : RCTaskMap) (cur v : String) :
    predOf (stepF m cur) v = predOf m v := by
  rw [predOf, stepF_get]
  by_cases h : v = cur
  · rw [if_pos h]
    cases hg : mapGet m v <;> simp [predOf, hg]
  · rw [if_neg h]
    rfl

theorem succOf_stepF (m : RCTaskMap) (cur v : String) :
    succOf (stepF m cur) v = succOf m v := by
  rw [succOf, stepF_get]
  by_cases h : v = cur
  · rw [if_pos h]
    cases hg : mapGet m v <;> simp [succOf, hg]
  · rw [if_neg h]
    rfl

theorem durOf_stepF (m : RCTaskMap) (cur v : String) :
    durOf (stepF m cur) v = durOf m v := by
  rw [durOf, stepF_get]
  by_cases h : v = cur
  · rw [if_pos h]
    cases hg : mapGet m v <;> simp [durOf, hg]
  · rw [if_neg h]
    rfl

theorem lsOf_stepF (m : RCTaskMap) (cur v : String) :
    lsOf (stepF m cur) v = lsOf m v := by
  rw [lsOf, stepF_get]
  by_cases h : v = cur
  · rw [if_pos h]
    cases hg : mapGet m v <;> simp [lsOf, hg]
  · rw [if_neg h]
    rfl

theorem lfOf_stepF (m : RCTaskMap) (cur v : String) :
    lfOf (stepF m cur) v = lfOf m v := by
  rw [lfOf, stepF_get]
  by_cases h : v = cur
  · rw [if_pos h]
    cases hg : mapGet m v <;> simp [lfOf, hg]
  · rw [if_neg h]
    rfl

theorem esOf_stepF_ne {m : RCTaskMap} {cur v : String} (h : v ≠ cur) :
    esOf (stepF m cur) v = esOf m v := by
  rw [esOf, stepF_get, if_neg h, esOf]

theorem efOf_stepF_ne {m : RCTaskMap} {cur v : String} (h : v ≠ cur) :
    efOf (stepF m cur) v = efOf m v := by
  rw [efOf, stepF_get, if_neg h, efOf]

theorem esOf_stepF_eq {m : RCTaskMap} {cur : String} (h : cur ∈ dom m) :
    esOf (stepF m cur) cur = optMax ((predOf m cur).map (fun u => efOf m u)) := by
  rcases mem_dom_iff.1 h with ⟨t, ht⟩
  rw [esOf, stepF_get, if_pos rfl, ht]
  rfl

theorem efOf_stepF_eq {m : RCTaskMap} {cur : String} (h : cur ∈ dom m) :
    efOf (stepF m cur) cur =
      optMax ((predOf m cur).map (fun u => efOf m u)) + durOf m cur := by
  rcases mem_dom_iff.1 h with ⟨t, ht⟩
  rw [efOf, stepF_get, if_pos rfl, ht, durOf, ht]
  rfl

theorem predOf_stepB (m : RCTaskMap) (cur v : String) :
    predOf (stepB m cur) v = predOf m v := by
  rw [predOf, stepB_get]
  by_cases h : v = cur
  · rw [if_pos h]
    cases hg : mapGet m v <;> simp [predOf, hg]
  · rw [if_neg h]
    rfl

theorem succOf_stepB (m : RCTaskMap) (cur v : String) :
    succOf (stepB m cur) v = succOf m v := by
  rw [succOf, stepB_get]
  by_cases h : v = cur
  · rw [if_pos h]
    cases hg : mapGet m v <;> simp [succOf, hg]
  · rw [if_neg h]
    rfl

theorem durOf_stepB (m : RCTaskMap) (cur v : String) :
    durOf (stepB m cur) v = durOf m v := by
  rw [durOf, stepB_get]
  by_cases h : v = cur
  · rw [if_pos h]
    cases hg : mapGet m v <;> simp [durOf, hg]
  · rw [if_neg h]
    rfl

theorem esOf_stepB (m : RCTaskMap) (cur v : String) :
    esOf (stepB m cur) v = esOf m v := by
  rw [esOf, stepB_get]
  by_cases h : v = cur
  · rw [if_pos h]
    cases hg : mapGet m v <;> simp [esOf, hg]
  · rw [if_neg h]
    rfl

theorem efOf_stepB (m : RCTaskMap) (cur v : String) :
    efOf (stepB m cur) v = efOf m v := by
  rw [efOf, stepB_get]
  by_cases h : v = cur
  · rw [if_pos h]
    cases hg : mapGet m v <;> simp [efOf, hg]
  · rw [if_neg h]
    rfl

theorem lsOf_stepB_ne {m : RCTaskMap} {cur v : String} (h : v ≠ cur) :
    lsOf (stepB m cur) v = lsOf m v := by
  rw [lsOf, stepB_get, if_neg h, lsOf]

theorem lfOf_stepB_ne {m : RCTaskMap} {cur v : String} (h : v ≠ cur) :
    lfOf (stepB m cur) v = lfOf m v := by
  rw [lfOf, stepB_get, if_neg h, lfOf]

theorem lfOf_stepB_eq {m : RCTaskMap} {cur : String} (h : cur ∈ dom m) :
    lfOf (stepB m cur) cur = optMin ((succOf m cur).map (fun s => lsOf m s)) := by
  rcases mem_dom_iff.1 h with ⟨t, ht⟩
  rw [lfOf, stepB_get, if_pos rfl, ht]
  rfl

theorem lsOf_stepB_eq {m : RCTaskMap} {cur : String} (h : cur ∈ dom m) :
    lsOf (stepB m cur) cur =
      optMin ((succOf m cur).map (fun s => lsOf m s)) - durOf m cur := by
  rcases mem_dom_iff.1 h with ⟨t, ht⟩
  rw [lsOf, stepB_get, if_pos rfl, ht, durOf, ht]
  rfl

theorem sameStruct_refl (g : RCTaskMap) : sameStruct g g :=
  ⟨rfl, fun _ => rfl, fun _ => rfl, fun _ => rfl⟩

theorem sameStruct_stepF {g m : RCTaskMap} {cur : String} (hs : sameStruct g m) :
    sameStruct g (stepF m cur) :=
  ⟨(dom_stepF m cur).trans hs.1,
   fun v => (predOf_stepF m cur v).trans (hs.2.1 v),
   fun v => (succOf_stepF m cur v).trans (hs.2.2.1 v),
   fun v => (durOf_stepF m cur v).trans (hs.2.2.2 v)⟩

theorem sameStruct_stepB {g m : RCTaskMap} {cur : String} (hs : sameStruct g m) :
    sameStruct g (stepB m cur) :=
  ⟨(dom_stepB m cur).trans hs.1,
   fun v => (predOf_stepB m cur v).trans (hs.2.1 v),
   fun v => (succOf_stepB m cur v).trans (hs.2.2.1 v),
   fun v => (durOf_stepB m cur v).trans (hs.2.2.2 v)⟩

theorem sameStruct_length {g m : RCTaskMap} (hs : sameStruct g m) : m.length = g.length := by
  have h1 : (dom m).length = (dom g).length := by rw [hs.1]
  simpa [dom] using h1

theorem propagateForwardAux_step {fuel : Nat} {cur : String} {rest : List String}
    {m : RCTaskMap} {t : Task} (hget : mapGet m cur = some t) :
    propagateForwardAux (fuel + 1) (cur :: rest) m =
      propagateForwardAux fuel (rest ++ succOf m cur) (stepF m cur) := by
  have hpred : predOf m cur = t.pred := by rw [predOf, hget]
  have hsucc : succOf m cur = t.succ := by rw [succOf, hget]
  simp only [propagateForwardAux, hget, stepF, hpred, hsucc]

theorem propagateBackwardAux_step {fuel : Nat} {cur : String} {rest : List String}
    {m : RCTaskMap} {t : Task} (hget : mapGet m cur = some t)
    (hguard : t.duration ≤ optMin ((succOf m cur).map (fun s => lsOf m s))) :
    propagateBackwardAux (fuel + 1) (cur :: rest) m =
      propagateBackwardAux fuel (rest ++ predOf m cur) (stepB m cur) := by
  have hpred : predOf m cur = t.pred := by rw [predOf, hget]
  have hsucc : succOf m cur = t.succ := by rw [succOf, hget]
  rw [hsucc] at hguard
  simp only [propagateBackwardAux, hget, stepB, hpred, hsucc]
  rw [if_pos hguard]

/-! ### Stability of the fuel-based specification functions -/

theorem esAux_stable {g : RCTaskMap} {ρ : String → Nat}
    (hcl : ∀ v ∈ dom g, ∀ u ∈ predOf g v, u ∈ dom g)
    (hrk : ∀ v ∈ dom g, ∀ u ∈ predOf g v, ρ u < ρ v) :
    ∀ n v, v ∈ dom g → ρ v ≤ n → ∀ k₁ k₂, ρ v < k₁ → ρ v < k₂ →
      esAux g k₁ v = esAux g k₂ v := by
  intro n
  induction n with
  | zero =>
      intro v hv h0 k₁ k₂ h1 h2
      cases k₁ with
      | zero => omega
      | succ a =>
          cases k₂ with
          | zero => omega
          | succ b =>
              simp only [esAux]
              congr 1
              apply map_congr_mem
              intro u hu
              exact absurd (hrk v hv u hu) (by omega)
  | succ n ih =>
      intro v hv hn k₁ k₂ h1 h2
      cases k₁ with
      | zero => omega
      | succ a =>
          cases k₂ with
          | zero => omega
          | succ b =>
              simp only [esAux]
              congr 1
              apply map_congr_mem
              intro u hu
              have hud : u ∈ dom g := hcl v hv u hu
              have hru : ρ u < ρ v := hrk v hv u hu
              rw [ih u hud (by omega) a b (by omega) (by omega)]

theorem depthFAux_stable {g : RCTaskMap} {ρ : String → Nat}
    (hcl : ∀ v ∈ dom g, ∀ u ∈ predOf g v, u ∈ dom g)
    (hrk : ∀ v ∈ dom g, ∀ u ∈ predOf g v, ρ u < ρ v) :
    ∀ n v, v ∈ dom g → ρ v ≤ n → ∀ k₁ k₂, ρ v < k₁ → ρ v < k₂ →
      depthFAux g k₁ v = depthFAux g k₂ v := by
  intro n
  induction n with
  | zero =>
      intro v hv h0 k₁ k₂ h1 h2
      cases k₁ with
      | zero => omega
      | succ a =>
          cases k₂ with
          | zero => omega
          | succ b =>
              simp only [depthFAux]
              congr 1
              apply map_congr_mem
              intro u hu
              exact absurd (hrk v hv u hu) (by omega)
  | succ n ih =>
      intro v hv hn k₁ k₂ h1 h2
      cases k₁ with
      | zero => omega
      | succ a =>
          cases k₂ with
          | zero => omega
          | succ b =>
              simp only [depthFAux]
              congr 1
              apply map_congr_mem
              intro u hu
              have hud : u ∈ dom g := hcl v hv u hu
              have hru : ρ u < ρ v := hrk v hv u hu
              rw [ih u hud (by omega) a b (by omega) (by omega)]

theorem weightB_stable {g : RCTaskMap} {ρ : String → Nat}
    (hcl : ∀ v ∈ dom g, ∀ u ∈ predOf g v, u ∈ dom g)
    (hrk : ∀ v ∈ dom g, ∀ u ∈ predOf g v, ρ u < ρ v) :
    ∀ n v, v ∈ dom g → ρ v ≤ n → ∀ k₁ k₂, ρ v < k₁ → ρ v < k₂ →
      weightB g k₁ v = weightB g k₂ v := by
  intro n
  induction n with
  | zero =>
      intro v hv h0 k₁ k₂ h1 h2
      cases k₁ with
      | zero => omega
      | succ a =>
          cases k₂ with
          | zero => omega
          | succ b =>
              simp only [weightB]
              congr 2
              apply map_congr_mem
              intro u hu
              exact absurd (hrk v hv u hu) (by omega)
  | succ n ih =>
      intro v hv hn k₁ k₂ h1 h2
      cases k₁ with
      | zero => omega
      | succ a =>
          cases k₂ with
          | zero => omega
          | succ b =>
              simp only [weightB]
              congr 2
              apply map_congr_mem
              intro u hu
              have hud : u ∈ dom g := hcl v hv u hu
              have hru : ρ u < ρ v := hrk v hv u hu
              rw [ih u hud (by omega) a b (by omega) (by omega)]

theorem lfAux_stable {g : RCTaskMap} {ρ : String → Nat} {M N : Nat}
    (hcl : ∀ v ∈ dom g, ∀ s ∈ succOf g v, s ∈ dom g)
    (hrk : ∀ v ∈ dom g, ∀ s ∈ succOf g v, ρ v < ρ s)
    (hbd : ∀ v ∈ dom g, ρ v < N) :
    ∀ n v, v ∈ dom g → N - ρ v ≤ n → ∀ k₁ k₂, N - ρ v ≤ k₁ → N - ρ v ≤ k₂ →
      lfAux g M k₁ v = lfAux g M k₂ v := by
  intro n
  induction n with
  | zero =>
      intro v hv h0 _ _ _ _
      exact absurd (hbd v hv) (by omega)
  | succ n ih =>
      intro v hv hn k₁ k₂ h1 h2
      have hb := hbd v hv
      cases k₁ with
      | zero => omega
      | succ a =>
          cases k₂ with
          | zero => omega
          | succ b =>
              simp only [lfAux]
              cases hs : succOf g v with
              | nil => rfl
              | cons s l =>
                  show optMin ((s :: l).map (fun u => lfAux g M a u - durOf g u)) =
                    optMin ((s :: l).map (fun u => lfAux g M b u - durOf g u))
                  congr 1
                  apply map_congr_mem
                  intro u hu
                  have hum : u ∈ succOf g v := by rw [hs]; exact hu
                  have hud : u ∈ dom g := hcl v hv u hum
                  have hru : ρ v < ρ u := hrk v hv u hum
                  have hbu := hbd u hud
                  rw [ih u hud (by omega) a b (by omega) (by omega)]

theorem depthBAux_stable {g : RCTaskMap} {ρ : String → Nat} {N : Nat}
    (hcl : ∀ v ∈ dom g, ∀ s ∈ succOf g v, s ∈ dom g)
    (hrk : ∀ v ∈ dom g, ∀ s ∈ succOf g v, ρ v < ρ s)
    (hbd : ∀ v ∈ dom g, ρ v < N) :
    ∀ n v, v ∈ dom g → N - ρ v ≤ n → ∀ k₁ k₂, N - ρ v ≤ k₁ → N - ρ v ≤ k₂ →
      depthBAux g k₁ v = depthBAux g k₂ v := by
  intro n
  induction n with
  | zero =>
      intro v hv h0 _ _ _ _
      exact absurd (hbd v hv) (by omega)
  | succ n ih =>
      intro v hv hn k₁ k₂ h1 h2
      have hb := hbd v hv
      cases k₁ with
      | zero => omega
      | succ a =>
          cases k₂ with
          | zero => omega
          | succ b =>
              simp only [depthBAux]
              congr 1
              apply map_congr_mem
              intro u hu
              have hud : u ∈ dom g := hcl v hv u hu
              have hru : ρ v < ρ u := hrk v hv u hu
              have hbu := hbd u hud
              rw [ih u hud (by omega) a b (by omega) (by omega)]

theorem weightF_stable {g : RCTaskMap} {ρ : String → Nat} {N : Nat}
    (hcl : ∀ v ∈ dom g, ∀ s ∈ succOf g v, s ∈ dom g)
    (hrk : ∀ v ∈ dom g, ∀ s ∈ succOf g v, ρ v < ρ s)
    (hbd : ∀ v ∈ dom g, ρ v < N) :
    ∀ n v, v ∈ dom g → N - ρ v ≤ n → ∀ k₁ k₂, N - ρ v ≤ k₁ → N - ρ v ≤ k₂ →
      weightF g k₁ v = weightF g k₂ v := by
  intro n
  induction n with
  | zero =>
      intro v hv h0 _ _ _ _
      exact absurd (hbd v hv) (by omega)
  | succ n ih =>
      intro v hv hn k₁ k₂ h1 h2
      have hb := hbd v hv
      cases k₁ with
      | zero => omega
      | succ a =>
          cases k₂ with
          | zero => omega
          | succ b =>
              simp only [weightF]
              congr 2
              apply map_congr_mem
              intro u hu
              have hud : u ∈ dom g := hcl v hv u hu
              have hru : ρ v < ρ u := hrk v hv u hu
              have hbu := hbd u hud
              rw [ih u hud (by omega) a b (by omega) (by omega)]

/-! ### Derived facts about a well-formed graph -/

theorem WFG.rankS {g : RCTaskMap} {ρ : String → Nat} (hwf : WFG g ρ) :
    ∀ v ∈ dom g, ∀ s ∈ succOf g v, ρ v < ρ s := by
  intro v hv s hs
  have hsd : s ∈ dom g := hwf.closedS v hv s hs
  have : v ∈ predOf g s := (hwf.sym v hv s hsd).2 hs
  exact hwf.rankP s hsd v this

theorem specEs_eq {g : RCTaskMap} {ρ : String → Nat} (hwf : WFG g ρ)
    {v : String} (hv : v ∈ dom g) :
    specEs g v = optMax ((predOf g v).map (fun u => specEf g u)) := by
  have hb := hwf.rankBound v hv
  obtain ⟨K, hK⟩ : ∃ K, g.length = K + 1 := ⟨g.length - 1, by omega⟩
  rw [specEs, hK, esAux]
  congr 1
  apply map_congr_mem
  intro u hu
  have hud : u ∈ dom g := hwf.closedP v hv u hu
  have hru : ρ u < ρ v := hwf.rankP v hv u hu
  rw [specEf, specEs, hK,
      esAux_stable hwf.closedP hwf.rankP (ρ u) u hud (le_refl _) K (K + 1)
        (by omega) (by omega)]

theorem depthF_eq {g : RCTaskMap} {ρ : String → Nat} (hwf : WFG g ρ)
    {v : String} (hv : v ∈ dom g) :
    depthF g v = optMax ((predOf g v).map (fun u => depthF g u + 1)) := by
  have hb := hwf.rankBound v hv
  obtain ⟨K, hK⟩ : ∃ K, g.length = K + 1 := ⟨g.length - 1, by omega⟩
  rw [depthF, hK, depthFAux]
  congr 1
  apply map_congr_mem
  intro u hu
  have hud : u ∈ dom g := hwf.closedP v hv u hu
  have hru : ρ u < ρ v := hwf.rankP v hv u hu
  rw [depthF, hK,
      depthFAux_stable hwf.closedP hwf.rankP (ρ u) u hud (le_refl _) K (K + 1)
        (by omega) (by omega)]

theorem depthB_eq {g : RCTaskMap} {ρ : String → Nat} (hwf : WFG g ρ)
    {v : String} (hv : v ∈ dom g) :
    depthB g v = optMax ((succOf g v).map (fun s => depthB g s + 1)) := by
  have hb := hwf.rankBound v hv
  obtain ⟨K, hK⟩ : ∃ K, g.length = K + 1 := ⟨g.length - 1, by omega⟩
  rw [depthB, hK, depthBAux]
  congr 1
  apply map_congr_mem
  intro u hu
  have hud : u ∈ dom g := hwf.closedS v hv u hu
  have hru : ρ v < ρ u := hwf.rankS v hv u hu
  have hbu := hwf.rankBound u hud
  rw [depthB, hK,
      depthBAux_stable hwf.closedS hwf.rankS hwf.rankBound (g.length - ρ u) u hud
        (by omega) K (K + 1) (by omega) (by omega)]

theorem specLf_end {g : RCTaskMap} {ρ : String → Nat} (hwf : WFG g ρ) (M : Nat) :
    specLf g M END_ID = M := by
  have hb := hwf.rankBound END_ID hwf.endMem
  obtain ⟨K, hK⟩ : ∃ K, g.length = K + 1 := ⟨g.length - 1, by omega⟩
  rw [specLf, hK, lfAux, hwf.endSucc]

theorem specLf_eq {g : RCTaskMap} {ρ : String → Nat} (hwf : WFG g ρ) {M : Nat}
    {v : String} (hv : v ∈ dom g) (hne : v ≠ END_ID) :
    specLf g M v = optMin ((succOf g v).map (fun s => specLs g M s)) := by
  have hb := hwf.rankBound v hv
  obtain ⟨K, hK⟩ : ∃ K, g.length = K + 1 := ⟨g.length - 1, by omega⟩
  rw [specLf, hK, lfAux]
  cases hs : succOf g v with
  | nil => exact absurd hs (hwf.succNE v hv hne)
  | cons s l =>
      show optMin ((s :: l).map (fun u => lfAux g M K u - durOf g u)) =
        optMin ((s :: l).map (fun u => specLs g M u))
      congr 1
      apply map_congr_mem
      intro u hu
      have hum : u ∈ succOf g v := by rw [hs]; exact hu
      have hud : u ∈ dom g := hwf.closedS v hv u hum
      have hru : ρ v < ρ u := hwf.rankS v hv u hum
      have hbu := hwf.rankBound u hud
      rw [specLs, specLf, hK,
          lfAux_stable hwf.closedS hwf.rankS hwf.rankBound (g.length - ρ u) u hud
            (by omega) K (K + 1) (by omega) (by omega)]

theorem weightF_rec {g : RCTaskMap} {ρ : String → Nat} (hwf : WFG g ρ)
    {v : String} (hv : v ∈ dom g) :
    weightF g g.length v = 1 + ((succOf g v).map (weightF g g.length)).sum := by
  have hb := hwf.rankBound v hv
  obtain ⟨K, hK⟩ : ∃ K, g.length = K + 1 := ⟨g.length - 1, by omega⟩
  rw [hK, weightF]
  congr 2
  apply map_congr_mem
  intro u hu
  have hud : u ∈ dom g := hwf.closedS v hv u hu
  have hru : ρ v < ρ u := hwf.rankS v hv u hu
  have hbu := hwf.rankBound u hud
  rw [weightF_stable hwf.closedS hwf.rankS hwf.rankBound (g.length - ρ u) u hud
        (by omega) K (K + 1) (by omega) (by omega)]

theorem weightB_rec {g : RCTaskMap} {ρ : String → Nat} (hwf : WFG g ρ)
    {v : String} (hv : v ∈ dom g) :
    weightB g g.length v = 1 + ((predOf g v).map (weightB g g.length)).sum := by
  have hb := hwf.rankBound v hv
  obtain ⟨K, hK⟩ : ∃ K, g.length = K + 1 := ⟨g.length - 1, by omega⟩
  rw [hK, weightB]
  congr 2
  apply map_congr_mem
  intro u hu
  have hud : u ∈ dom g := hwf.closedP v hv u hu
  have hru : ρ u < ρ v := hwf.rankP v hv u hu
  rw [weightB_stable hwf.closedP hwf.rankP (ρ u) u hud (le_refl _) K (K + 1)
        (by omega) (by omega)]

/-! ### Reachability and depth chains -/

theorem mem_predOf_dom {g : RCTaskMap} {v w : String} (h : w ∈ predOf g v) : v ∈ dom g := by
  cases hg : mapGet g v with
  | none => rw [predOf, hg] at h; cases h
  | some t => exact mem_dom_iff.2 ⟨t, hg⟩

theorem mem_succOf_dom {g : RCTaskMap} {v w : String} (h : w ∈ succOf g v) : v ∈ dom g := by
  cases hg : mapGet g v with
  | none => rw [succOf, hg] at h; cases h
  | some t => exact mem_dom_iff.2 ⟨t, hg⟩

theorem reachF_trans {g : RCTaskMap} {u w v : String}
    (h1 : ReachF g u w) (h2 : ReachF g w v) : ReachF g u v := by
  induction h2 with
  | refl => exact h1
  | tail _ hedge ih => exact ReachF.tail ih hedge

theorem reachB_trans {g : RCTaskMap} {u w v : String}
    (h1 : ReachB g u w) (h2 : ReachB g w v) : ReachB g u v := by
  induction h2 with
  | refl => exact h1
  | tail _ hedge ih => exact ReachB.tail ih hedge

theorem ReachF.rank_le {g : RCTaskMap} {ρ : String → Nat} (hwf : WFG g ρ)
    {u v : String} (h : ReachF g u v) : ρ u ≤ ρ v := by
  induction h with
  | refl => exact le_refl _
  | tail _ hedge ih =>
      rename_i w v' _
      have hvd := mem_predOf_dom hedge
      exact le_trans ih (le_of_lt (hwf.rankP v' hvd w hedge))

theorem reachB_end {g : RCTaskMap} {ρ : String → Nat} (hwf : WFG g ρ)
    {u : String} (h : ReachB g u END_ID) : u = END_ID := by
  cases h with
  | refl => rfl
  | tail _ hedge => rw [hwf.endSucc] at hedge; cases hedge

theorem end_notin_pred {g : RCTaskMap} {ρ : String → Nat} (hwf : WFG g ρ)
    (v : String) : END_ID ∉ predOf g v := by
  intro h
  have hvd := mem_predOf_dom h
  have := (hwf.sym END_ID hwf.endMem v hvd).1 h
  rw [hwf.endSucc] at this
  cases this

theorem depthF_pred_empty {g : RCTaskMap} {ρ : String → Nat} (hwf : WFG g ρ)
    {v : String} (hv : v ∈ dom g) (h : predOf g v = []) : depthF g v = 0 := by
  rw [depthF_eq hwf hv, h]
  rfl

theorem depthF_lt_of_pred {g : RCTaskMap} {ρ : String → Nat} (hwf : WFG g ρ)
    {v u : String} (hv : v ∈ dom g) (hu : u ∈ predOf g v) :
    depthF g u < depthF g v := by
  have h1 : depthF g u + 1 ≤ depthF g v := by
    rw [depthF_eq hwf hv]
    exact le_optMax (List.mem_map.2 ⟨u, hu, rfl⟩)
  omega

theorem depthF_zero_start {g : RCTaskMap} {ρ : String → Nat} (hwf : WFG g ρ)
    {v : String} (hv : v ∈ dom g) (h : depthF g v = 0) : v = START_ID := by
  by_contra hne
  rcases List.exists_mem_of_ne_nil _ (hwf.predNE v hv hne) with ⟨u, hu⟩
  have := depthF_lt_of_pred hwf hv hu
  omega

theorem depthF_attained {g : RCTaskMap} {ρ : String → Nat} (hwf : WFG g ρ)
    {v : String} (hv : v ∈ dom g) (hne : predOf g v ≠ []) :
    ∃ u ∈ predOf g v, depthF g v = depthF g u + 1 := by
  have hmm : optMax ((predOf g v).map (fun u => depthF g u + 1)) ∈
      (predOf g v).map (fun u => depthF g u + 1) :=
    optMax_mem (by simpa using hne)
  rcases List.mem_map.1 hmm with ⟨u, hu, he⟩
  exact ⟨u, hu, by rw [depthF_eq hwf hv, ← he]⟩

theorem dcf_snoc {g : RCTaskMap} {a w v : String}
    (h : DCF g a w) (hedge : v ∈ succOf g w) (hd : depthF g v = depthF g w + 1) :
    DCF g a v := by
  induction h with
  | refl => exact DCF.head hedge hd (DCF.refl v)
  | head he hd' _ ih => exact DCF.head he hd' (ih hedge hd)

theorem dcf_depth_le {g : RCTaskMap} {u v : String} (h : DCF g u v) :
    depthF g u ≤ depthF g v := by
  induction h with
  | refl => exact le_refl _
  | head _ hd _ ih => omega

theorem dcf_start {g : RCTaskMap} {ρ : String → Nat} (hwf : WFG g ρ) :
    ∀ n v, v ∈ dom g → depthF g v ≤ n → DCF g START_ID v := by
  intro n
  induction n with
  | zero =>
      intro v hv h0
      have := depthF_zero_start hwf hv (by omega)
      subst this
      exact DCF.refl _
  | succ n ih =>
      intro v hv hn
      by_cases h0 : depthF g v = 0
      · have := depthF_zero_start hwf hv h0
        subst this
        exact DCF.refl _
      · have hne : predOf g v ≠ [] := by
          intro he
          exact h0 (depthF_pred_empty hwf hv he)
        rcases depthF_attained hwf hv hne with ⟨u, hu, hd⟩
        have hud : u ∈ dom g := hwf.closedP v hv u hu
        have hchain := ih u hud (by omega)
        exact dcf_snoc hchain ((hwf.sym u hud v hv).1 hu) hd

theorem depthB_succ_empty {g : RCTaskMap} {ρ : String → Nat} (hwf : WFG g ρ)
    {v : String} (hv : v ∈ dom g) (h : succOf g v = []) : depthB g v = 0 := by
  rw [depthB_eq hwf hv, h]
  rfl

theorem depthB_lt_of_succ {g : RCTaskMap} {ρ : String → Nat} (hwf : WFG g ρ)
    {v s : String} (hv : v ∈ dom g) (hs : s ∈ succOf g v) :
    depthB g s < depthB g v := by
  have h1 : depthB g s + 1 ≤ depthB g v := by
    rw [depthB_eq hwf hv]
    exact le_optMax (List.mem_map.2 ⟨s, hs, rfl⟩)
  omega

theorem depthB_zero_end {g : RCTaskMap} {ρ : String → Nat} (hwf : WFG g ρ)
    {v : String} (hv : v ∈ dom g) (h : depthB g v = 0) : v = END_ID := by
  by_contra hne
  rcases List.exists_mem_of_ne_nil _ (hwf.succNE v hv hne) with ⟨s, hs⟩
  have := depthB_lt_of_succ hwf hv hs
  omega

theorem depthB_attained {g : RCTaskMap} {ρ : String → Nat} (hwf : WFG g ρ)
    {v : String} (hv : v ∈ dom g) (hne : succOf g v ≠ []) :
    ∃ s ∈ succOf g v, depthB g v = depthB g s + 1 := by
  have hmm : optMax ((succOf g v).map (fun s => depthB g s + 1)) ∈
      (succOf g v).map (fun s => depthB g s + 1) :=
    optMax_mem (by simpa using hne)
  rcases List.mem_map.1 hmm with ⟨s, hs, he⟩
  exact ⟨s, hs, by rw [depthB_eq hwf hv, ← he]⟩

theorem dcb_snoc {g : RCTaskMap} {a w v : String}
    (h : DCB g a w) (hedge : v ∈ predOf g w) (hd : depthB g v = depthB g w + 1) :
    DCB g a v := by
  induction h with
  | refl => exact DCB.head hedge hd (DCB.refl v)
  | head he hd' _ ih => exact DCB.head he hd' (ih hedge hd)

theorem dcb_depth_le {g : RCTaskMap} {u v : String} (h : DCB g u v) :
    depthB g u ≤ depthB g v := by
  induction h with
  | refl => exact le_refl _
  | head _ hd _ ih => omega

theorem dcb_seed {g : RCTaskMap} {ρ : String → Nat} (hwf : WFG g ρ) :
    ∀ n v, v ∈ dom g → v ≠ END_ID → depthB g v ≤ n →
      ∃ u ∈ predOf g END_ID, depthB g u = 1 ∧ DCB g u v := by
  intro n
  induction n with
  | zero =>
      intro v hv hne h0
      exact absurd (depthB_zero_end hwf hv (by omega)) hne
  | succ n ih =>
      intro v hv hne hn
      have hsne : succOf g v ≠ [] := hwf.succNE v hv hne
      rcases depthB_attained hwf hv hsne with ⟨s, hs, hd⟩
      have hsd : s ∈ dom g := hwf.closedS v hv s hs
      by_cases hsend : s = END_ID
      · subst hsend
        refine ⟨v, (hwf.sym v hv END_ID hwf.endMem).2 hs, ?_, DCB.refl v⟩
        rw [hd, depthB_succ_empty hwf hwf.endMem hwf.endSucc]
      · have hds : depthB g s ≤ n := by
          have := depthB_lt_of_succ hwf hv hs
          omega
        rcases ih s hsd hsend hds with ⟨u, hu, h1, hc⟩
        exact ⟨u, hu, h1, dcb_snoc hc ((hwf.sym v hv s hsd).2 hs) hd⟩

/-! ### Correctness of the forward pass -/

theorem weightF_ge_one (g : RCTaskMap) (k : Nat) (v : String) : 1 ≤ weightF g k v := by
  cases k with
  | zero => exact le_refl 1
  | succ k => simp [weightF]

theorem stepF_writes_spec {g : RCTaskMap} {ρ : String → Nat} (hwf : WFG g ρ)
    {m : RCTaskMap} {h : String} (hs : sameStruct g m) (hd : h ∈ dom g)
    (hpr : ∀ p ∈ predOf g h, okF g m p) : okF g (stepF m h) h := by
  have hm : h ∈ dom m := by rw [hs.1]; exact hd
  have hcomp : optMax ((predOf m h).map (fun u => efOf m u)) = specEs g h := by
    rw [hs.2.1 h, specEs_eq hwf hd]
    congr 1
    apply map_congr_mem
    intro p hp
    exact (hpr p hp).2
  constructor
  · rw [esOf_stepF_eq hm, hcomp]
  · rw [efOf_stepF_eq hm, hcomp, hs.2.2.2 h]
    rfl

theorem doneF_stepF {g : RCTaskMap} {ρ : String → Nat} (hwf : WFG g ρ)
    {m : RCTaskMap} {h : String} (hs : sameStruct g m) (hd : h ∈ dom g)
    {v : String} (hv : doneF g m v) : doneF g (stepF m h) v := by
  intro u hu
  by_cases huh : u = h
  · subst huh
    apply stepF_writes_spec hwf hs hd
    intro p hp
    exact hv p (reachF_trans (ReachF.tail (ReachF.refl p) hp) hu)
  · have hok := hv u hu
    exact ⟨(esOf_stepF_ne huh).trans hok.1, (efOf_stepF_ne huh).trans hok.2⟩

theorem fwdLoop {g : RCTaskMap} {ρ : String → Nat} (hwf : WFG g ρ) :
    ∀ fuel wl L m, sameStruct g m → InvF g wl L m → totalWF g wl ≤ fuel →
      ∃ m', propagateForwardAux fuel wl m = some m' ∧ sameStruct g m' ∧
        (∀ v, lsOf m' v = lsOf m v) ∧ (∀ v, lfOf m' v = lfOf m v) ∧
        (∀ v ∈ dom g, okF g m' v) := by
  intro fuel
  induction fuel with
  | zero =>
      intro wl L m hs hinv hfuel
      cases wl with
      | cons c wl' =>
          exfalso
          have h1 := weightF_ge_one g g.length c
          have h2 : totalWF g (c :: wl') = weightF g g.length c + totalWF g wl' := by
            simp [totalWF]
          omega
      | nil =>
          refine ⟨m, rfl, hs, fun _ => rfl, fun _ => rfl, ?_⟩
          intro v hv
          rcases hinv.2.2.2.2 v hv with hdone | ⟨p, hpz, _, _⟩
          · exact hdone v (ReachF.refl v)
          · simp at hpz
  | succ fuel ih =>
      intro wl L m hs hinv hfuel
      cases wl with
      | nil =>
          refine ⟨m, rfl, hs, fun _ => rfl, fun _ => rfl, ?_⟩
          intro v hv
          rcases hinv.2.2.2.2 v hv with hdone | ⟨p, hpz, _, _⟩
          · exact hdone v (ReachF.refl v)
          · simp at hpz
      | cons h rest =>
          obtain ⟨hlen, hsort, hspread, hdom, hstate⟩ := hinv
          cases L with
          | nil => simp at hlen
          | cons lev Lrest =>
              have hlen' : rest.length = Lrest.length := by simpa using hlen
              have hhd : h ∈ dom g := hdom h (by simp)
              have hhm : h ∈ dom m := by rw [hs.1]; exact hhd
              rcases mem_dom_iff.1 hhm with ⟨t, ht⟩
              rw [propagateForwardAux_step ht, hs.2.2.1 h]
              have hheadmin : ∀ b ∈ lev :: Lrest, lev ≤ b := by
                intro b hb
                rcases List.mem_cons.1 hb with rfl | hb'
                · exact le_refl b
                · exact (List.sorted_cons.1 hsort).1 b hb'
              -- the new ghost levels
              have hzip : (h :: rest).zip (lev :: Lrest) =
                  (h, lev) :: rest.zip Lrest := rfl
              have hzip' : (rest ++ succOf g h).zip
                    (Lrest ++ List.replicate (succOf g h).length (lev + 1)) =
                  rest.zip Lrest ++
                    (succOf g h).zip (List.replicate (succOf g h).length (lev + 1)) :=
                List.zip_append hlen'
              -- invariant for the next iteration
              have hInv' : InvF g (rest ++ succOf g h)
                  (Lrest ++ List.replicate (succOf g h).length (lev + 1)) (stepF m h) := by
                refine ⟨by simp [hlen'], ?_, ?_, ?_, ?_⟩
                · -- sortedness
                  refine List.pairwise_append.2 ⟨(List.sorted_cons.1 hsort).2, ?_, ?_⟩
                  · rw [List.pairwise_replicate]
                    right
                    exact le_refl _
                  · intro a ha b hb
                    have hb' : b = lev + 1 := (List.mem_replicate.1 hb).2
                    have := hspread a (by simp [ha]) lev (by simp)
                    omega
                · -- spread
                  intro a ha b hb
                  rcases List.mem_append.1 ha with ha' | ha' <;>
                    rcases List.mem_append.1 hb with hb' | hb'
                  · exact hspread a (by simp [ha']) b (by simp [hb'])
                  · have := hspread a (by simp [ha']) lev (by simp)
                    have hb2 := (List.mem_replicate.1 hb').2
                    omega
                  · have ha2 := (List.mem_replicate.1 ha').2
                    have := hheadmin b (by simp [hb'])
                    omega
                  · have ha2 := (List.mem_replicate.1 ha').2
                    have hb2 := (List.mem_replicate.1 hb').2
                    omega
                · -- worklist members are in the registry
                  intro v hv
                  rcases List.mem_append.1 hv with hv' | hv'
                  · exact hdom v (by simp [hv'])
                  · exact hwf.closedS h hhd v hv'
                · -- done or pending
                  intro v hv
                  rcases hstate v hv with hdone | ⟨p, hpz, hpd, hpc⟩
                  · exact Or.inl (doneF_stepF hwf hs hhd hdone)
                  · rw [hzip] at hpz
                    rcases List.mem_cons.1 hpz with rfl | hpz'
                    · -- the witness is the dequeued head, so lev = depthF g h
                      simp only at hpd hpc
                      -- all predecessors of h are finished
                      have hpreds : ∀ pp ∈ predOf g h, doneF g m pp := by
                        intro pp hpp
                        have hppd : pp ∈ dom g := hwf.closedP h hhd pp hpp
                        rcases hstate pp hppd with hdone | ⟨q, hqz, hqd, hqc⟩
                        · exact hdone
                        · exfalso
                          have hq2 : q.2 ∈ lev :: Lrest := (List.of_mem_zip hqz).2
                          have hmin : lev ≤ q.2 := hheadmin q.2 hq2
                          have h1 : depthF g q.1 ≤ depthF g pp := dcf_depth_le hqc
                          have h2 : depthF g pp < depthF g h :=
                            depthF_lt_of_pred hwf hhd hpp
                          omega
                      cases hpc with
                      | refl =>
                          left
                          intro u hu
                          by_cases huh : u = h
                          · subst huh
                            apply stepF_writes_spec hwf hs hhd
                            intro p hp
                            exact hpreds p hp p (ReachF.refl p)
                          · have hok : okF g m u := by
                              cases hu with
                              | refl => exact absurd rfl huh
                              | tail hr hedge =>
                                  rename_i w
                                  exact hpreds w hedge u hr
                            exact ⟨(esOf_stepF_ne huh).trans hok.1,
                                   (efOf_stepF_ne huh).trans hok.2⟩
                      | head hse hsd htail =>
                          rename_i s
                          right
                          refine ⟨(s, lev + 1), ?_, ?_, htail⟩
                          · rw [hzip']
                            exact List.mem_append_right _ (mem_zip_replicate hse _)
                          · simp only
                            omega
                    · right
                      exact ⟨p, by rw [hzip']; exact List.mem_append_left _ hpz',
                             hpd, hpc⟩
              -- fuel accounting
              have hwt : totalWF g (h :: rest) =
                  1 + totalWF g (rest ++ succOf g h) := by
                have h3 := weightF_rec hwf hhd
                simp only [totalWF, List.map_cons, List.sum_cons, List.map_append,
                  List.sum_append, h3]
                omega
              rcases ih (rest ++ succOf g h)
                  (Lrest ++ List.replicate (succOf g h).length (lev + 1))
                  (stepF m h) (sameStruct_stepF hs) hInv' (by omega) with
                ⟨m', hrun, hs', hls', hlf', hok'⟩
              refine ⟨m', hrun, hs', ?_, ?_, hok'⟩
              · intro v
                exact (hls' v).trans (lsOf_stepF m h v)
              · intro v
                exact (hlf' v).trans (lfOf_stepF m h v)

theorem weightF_congr {g m : RCTaskMap} (hs : sameStruct g m) :
    ∀ k v, weightF m k v = weightF g k v := by
  intro k
  induction k with
  | zero => intro v; rfl
  | succ k ih =>
      intro v
      simp only [weightF, hs.2.2.1 v]
      congr 2
      apply map_congr_mem
      intro u _
      exact ih u

theorem weightB_congr {g m : RCTaskMap} (hs : sameStruct g m) :
    ∀ k v, weightB m k v = weightB g k v := by
  intro k
  induction k with
  | zero => intro v; rfl
  | succ k ih =>
      intro v
      simp only [weightB, hs.2.1 v]
      congr 2
      apply map_congr_mem
      intro u _
      exact ih u

/-- The forward pass terminates on a structurally well-formed graph
(whatever the current time fields hold) and leaves every task at its
structurally determined earliest times, without touching latest times. -/
theorem forward_correct {g : RCTaskMap} {ρ : String → Nat} (hwf : WFG g ρ)
    {m : RCTaskMap} (hs : sameStruct g m) :
    ∃ m', propagate_forward m = some m' ∧ sameStruct g m' ∧
      (∀ v, lsOf m' v = lsOf m v) ∧ (∀ v, lfOf m' v = lfOf m v) ∧
      (∀ v ∈ dom g, okF g m' v) := by
  have hfuel : forwardFuel m = totalWF g [START_ID] := by
    rw [forwardFuel, totalWF, List.map_cons, List.map_nil, List.sum_cons,
        List.sum_nil, weightF_congr hs, sameStruct_length hs]
    omega
  have hInv0 : InvF g [START_ID] [0] m := by
    refine ⟨rfl, by simp, by simp, ?_, ?_⟩
    · intro v hv
      rcases List.mem_singleton.1 hv with rfl
      exact hwf.startMem
    · intro v hv
      right
      refine ⟨(START_ID, 0), by simp, ?_, dcf_start hwf (depthF g v) v hv (le_refl _)⟩
      simp only
      exact (depthF_pred_empty hwf hwf.startMem hwf.startPred).symm
  rw [propagate_forward]
  exact fwdLoop hwf (forwardFuel m) [START_ID] [0] m hs hInv0 (le_of_eq hfuel.symm)

/-! ### Correctness of the backward pass -/

theorem weightB_ge_one (g : RCTaskMap) (k : Nat) (v : String) : 1 ≤ weightB g k v := by
  cases k with
  | zero => exact le_refl 1
  | succ k => simp [weightB]

/-- Slack is non-negative on the specification side: the structurally
determined earliest finish never exceeds the latest finish, provided the
completion time is at least the earliest finish of `END`. -/
theorem specEf_le_specLf {g : RCTaskMap} {ρ : String → Nat} (hwf : WFG g ρ)
    {M : Nat} (hM : specEf g END_ID ≤ M) :
    ∀ n v, v ∈ dom g → depthB g v ≤ n → specEf g v ≤ specLf g M v := by
  intro n
  induction n with
  | zero =>
      intro v hv h0
      have hvE : v = END_ID := depthB_zero_end hwf hv (by omega)
      subst hvE
      rw [specLf_end hwf]
      exact hM
  | succ n ih =>
      intro v hv hn
      by_cases hvE : v = END_ID
      · subst hvE
        rw [specLf_end hwf]
        exact hM
      · rw [specLf_eq hwf hv hvE]
        have hsne := hwf.succNE v hv hvE
        apply le_optMin (by simpa using hsne)
        intro a ha
        rcases List.mem_map.1 ha with ⟨s, hsm, rfl⟩
        have hsd := hwf.closedS v hv s hsm
        have hds : depthB g s ≤ n := by
          have := depthB_lt_of_succ hwf hv hsm
          omega
        have h1 : specEf g s ≤ specLf g M s := ih s hsd hds
        have h2 : specEf g v ≤ specEs g s := by
          rw [specEs_eq hwf hsd]
          exact le_optMax (List.mem_map.2 ⟨v, (hwf.sym v hv s hsd).2 hsm, rfl⟩)
        have h3 : specEf g s = specEs g s + durOf g s := rfl
        rw [specLs]
        omega

theorem specLf_le_M {g : RCTaskMap} {ρ : String → Nat} (hwf : WFG g ρ) (M : Nat) :
    ∀ n v, v ∈ dom g → depthB g v ≤ n → specLf g M v ≤ M := by
  intro n
  induction n with
  | zero =>
      intro v hv h0
      have hvE : v = END_ID := depthB_zero_end hwf hv (by omega)
      subst hvE
      rw [specLf_end hwf]
  | succ n ih =>
      intro v hv hn
      by_cases hvE : v = END_ID
      · subst hvE
        rw [specLf_end hwf]
      · rw [specLf_eq hwf hv hvE]
        have hsne := hwf.succNE v hv hvE
        rcases List.exists_mem_of_ne_nil _ hsne with ⟨s, hsm⟩
        have hsd := hwf.closedS v hv s hsm
        have hds : depthB g s ≤ n := by
          have := depthB_lt_of_succ hwf hv hsm
          omega
        have h1 : specLf g M s ≤ M := ih s hsd hds
        have h2 : optMin ((succOf g v).map (fun u => specLs g M u)) ≤ specLs g M s :=
          optMin_le (List.mem_map.2 ⟨s, hsm, rfl⟩)
        have h3 : specLs g M s ≤ specLf g M s := Nat.sub_le _ _
        omega

theorem stepB_writes_spec {g : RCTaskMap} {ρ : String → Nat} (hwf : WFG g ρ)
    {M : Nat} {m : RCTaskMap} {h : String} (hs : sameStruct g m) (hd : h ∈ dom g)
    (hne : h ≠ END_ID) (hsucc : ∀ s ∈ succOf g h, okB g M m s) :
    okB g M (stepB m h) h := by
  have hm : h ∈ dom m := by rw [hs.1]; exact hd
  have hcomp : optMin ((succOf m h).map (fun s => lsOf m s)) = specLf g M h := by
    rw [hs.2.2.1 h, specLf_eq hwf hd hne]
    congr 1
    apply map_congr_mem
    intro s hsm
    exact (hsucc s hsm).1
  constructor
  · rw [lsOf_stepB_eq hm, hcomp, hs.2.2.2 h]
    rfl
  · rw [lfOf_stepB_eq hm, hcomp]

theorem doneB_stepB {g : RCTaskMap} {ρ : String → Nat} (hwf : WFG g ρ)
    {M : Nat} {m : RCTaskMap} {h : String} (hs : sameStruct g m) (hd : h ∈ dom g)
    (hne : h ≠ END_ID) {v : String} (hv : doneB g M m v) :
    doneB g M (stepB m h) v := by
  intro u hu
  by_cases huh : u = h
  · subst huh
    apply stepB_writes_spec hwf hs hd hne
    intro s hsm
    exact hv s (reachB_trans (ReachB.tail (ReachB.refl s) hsm) hu)
  · have hok := hv u hu
    exact ⟨(lsOf_stepB_ne huh).trans hok.1, (lfOf_stepB_ne huh).trans hok.2⟩

theorem bwdLoop {g : RCTaskMap} {ρ : String → Nat} (hwf : WFG g ρ)
    {M : Nat} (hM : specEf g END_ID ≤ M) :
    ∀ fuel wl L m, sameStruct g m → InvB g M wl L m → totalWB g wl ≤ fuel →
      ∃ m', propagateBackwardAux fuel wl m = some m' ∧ sameStruct g m' ∧
        (∀ v, esOf m' v = esOf m v) ∧ (∀ v, efOf m' v = efOf m v) ∧
        (∀ v ∈ dom g, okB g M m' v) := by
  intro fuel
  induction fuel with
  | zero =>
      intro wl L m hs hinv hfuel
      cases wl with
      | cons c wl' =>
          exfalso
          have h1 := weightB_ge_one g g.length c
          have h2 : totalWB g (c :: wl') = weightB g g.length c + totalWB g wl' := by
            simp [totalWB]
          omega
      | nil =>
          refine ⟨m, rfl, hs, fun _ => rfl, fun _ => rfl, ?_⟩
          intro v hv
          rcases hinv.2.2.2.2.2 v hv with hdone | ⟨p, hpz, _, _⟩
          · exact hdone v (ReachB.refl v)
          · simp at hpz
  | succ fuel ih =>
      intro wl L m hs hinv hfuel
      cases wl with
      | nil =>
          refine ⟨m, rfl, hs, fun _ => rfl, fun _ => rfl, ?_⟩
          intro v hv
          rcases hinv.2.2.2.2.2 v hv with hdone | ⟨p, hpz, _, _⟩
          · exact hdone v (ReachB.refl v)
          · simp at hpz
      | cons h rest =>
          obtain ⟨hlen, hsort, hspread, hdomE, hMcl, hstate⟩ := hinv
          cases L with
          | nil => simp at hlen
          | cons lev Lrest =>
              have hlen' : rest.length = Lrest.length := by simpa using hlen
              have hhd : h ∈ dom g := (hdomE h (by simp)).1
              have hhne : h ≠ END_ID := (hdomE h (by simp)).2
              have hhm : h ∈ dom m := by rw [hs.1]; exact hhd
              rcases mem_dom_iff.1 hhm with ⟨t, ht⟩
              -- the unsigned subtraction cannot underflow
              have hlsge : ∀ s ∈ succOf g h, specLs g M s ≤ lsOf m s :=
                fun s hsm => hMcl s (hwf.closedS h hhd s hsm)
              have hgmono : optMin ((succOf g h).map (fun s => specLs g M s)) ≤
                  optMin ((succOf g h).map (fun s => lsOf m s)) :=
                optMin_map_mono hlsge
              have heq : specLf g M h =
                  optMin ((succOf g h).map (fun s => specLs g M s)) :=
                specLf_eq hwf hhd hhne
              have hdurle : durOf g h ≤ specLf g M h := by
                have h1 := specEf_le_specLf hwf hM (depthB g h) h hhd (le_refl _)
                have h2 : specEf g h = specEs g h + durOf g h := rfl
                omega
              have ht2 : t.duration = durOf g h := by
                rw [← hs.2.2.2 h, durOf, ht]
              have hguard : t.duration ≤ optMin ((succOf m h).map (fun s => lsOf m s)) := by
                rw [hs.2.2.1 h, ht2]
                omega
              rw [propagateBackwardAux_step ht hguard, hs.2.1 h]
              have hheadmin : ∀ b ∈ lev :: Lrest, lev ≤ b := by
                intro b hb
                rcases List.mem_cons.1 hb with rfl | hb'
                · exact le_refl b
                · exact (List.sorted_cons.1 hsort).1 b hb'
              have hzip : (h :: rest).zip (lev :: Lrest) =
                  (h, lev) :: rest.zip Lrest := rfl
              have hzip' : (rest ++ predOf g h).zip
                    (Lrest ++ List.replicate (predOf g h).length (lev + 1)) =
                  rest.zip Lrest ++
                    (predOf g h).zip (List.replicate (predOf g h).length (lev + 1)) :=
                List.zip_append hlen'
              have hInv' : InvB g M (rest ++ predOf g h)
                  (Lrest ++ List.replicate (predOf g h).length (lev + 1)) (stepB m h) := by
                refine ⟨by simp [hlen'], ?_, ?_, ?_, ?_, ?_⟩
                · refine List.pairwise_append.2 ⟨(List.sorted_cons.1 hsort).2, ?_, ?_⟩
                  · rw [List.pairwise_replicate]
                    right
                    exact le_refl _
                  · intro a ha b hb
                    have hb' : b = lev + 1 := (List.mem_replicate.1 hb).2
                    have := hspread a (by simp [ha]) lev (by simp)
                    omega
                · intro a ha b hb
                  rcases List.mem_append.1 ha with ha' | ha' <;>
                    rcases List.mem_append.1 hb with hb' | hb'
                  · exact hspread a (by simp [ha']) b (by simp [hb'])
                  · have := hspread a (by simp [ha']) lev (by simp)
                    have hb2 := (List.mem_replicate.1 hb').2
                    omega
                  · have ha2 := (List.mem_replicate.1 ha').2
                    have := hheadmin b (by simp [hb'])
                    omega
                  · have ha2 := (List.mem_replicate.1 ha').2
                    have hb2 := (List.mem_replicate.1 hb').2
                    omega
                · intro v hv
                  rcases List.mem_append.1 hv with hv' | hv'
                  · exact hdomE v (by simp [hv'])
                  · refine ⟨hwf.closedP h hhd v hv', ?_⟩
                    intro hvE
                    subst hvE
                    exact end_notin_pred hwf h hv'
                · -- stored latest-starts stay at or above their final values
                  intro v hv
                  by_cases hvh : v = h
                  · subst hvh
                    rw [lsOf_stepB_eq hhm, hs.2.2.1 v, hs.2.2.2 v]
                    have := Nat.sub_le_sub_right hgmono (durOf g v)
                    rw [← heq] at this
                    exact le_trans (le_refl _) (by rw [specLs] at *; omega)
                  · rw [lsOf_stepB_ne hvh]
                    exact hMcl v hv
                · intro v hv
                  rcases hstate v hv with hdone | ⟨p, hpz, hpd, hpc⟩
                  · exact Or.inl (doneB_stepB hwf hs hhd hhne hdone)
                  · rw [hzip] at hpz
                    rcases List.mem_cons.1 hpz with rfl | hpz'
                    · simp only at hpd hpc
                      have hsuccs : ∀ ss ∈ succOf g h, doneB g M m ss := by
                        intro ss hss
                        have hssd : ss ∈ dom g := hwf.closedS h hhd ss hss
                        rcases hstate ss hssd with hdone | ⟨q, hqz, hqd, hqc⟩
                        · exact hdone
                        · exfalso
                          have hq2 : q.2 ∈ lev :: Lrest := (List.of_mem_zip hqz).2
                          have hmin : lev ≤ q.2 := hheadmin q.2 hq2
                          have h1 : depthB g q.1 ≤ depthB g ss := dcb_depth_le hqc
                          have h2 : depthB g ss < depthB g h :=
                            depthB_lt_of_succ hwf hhd hss
                          omega
                      cases hpc with
                      | refl =>
                          left
                          intro u hu
                          by_cases huh : u = h
                          · subst huh
                            apply stepB_writes_spec hwf hs hhd hhne
                            intro s hsm
                            exact hsuccs s hsm s (ReachB.refl s)
                          · have hok : okB g M m u := by
                              cases hu with
                              | refl => exact absurd rfl huh
                              | tail hr hedge =>
                                  rename_i w
                                  exact hsuccs w hedge u hr
                            exact ⟨(lsOf_stepB_ne huh).trans hok.1,
                                   (lfOf_stepB_ne huh).trans hok.2⟩
                      | head hpe hpd2 htail =>
                          rename_i p
                          right
                          refine ⟨(p, lev + 1), ?_, ?_, htail⟩
                          · rw [hzip']
                            exact List.mem_append_right _ (mem_zip_replicate hpe _)
                          · simp only
                            omega
                    · right
                      exact ⟨p, by rw [hzip']; exact List.mem_append_left _ hpz',
                             hpd, hpc⟩
              have hwt : totalWB g (h :: rest) =
                  1 + totalWB g (rest ++ predOf g h) := by
                have h3 := weightB_rec hwf hhd
                simp only [totalWB, List.map_cons, List.sum_cons, List.map_append,
                  List.sum_append, h3]
                omega
              rcases ih (rest ++ predOf g h)
                  (Lrest ++ List.replicate (predOf g h).length (lev + 1))
                  (stepB m h) (sameStruct_stepB hs) hInv' (by omega) with
                ⟨m', hrun, hs', hes', hef', hok'⟩
              refine ⟨m', hrun, hs', ?_, ?_, hok'⟩
              · intro v
                exact (hes' v).trans (esOf_stepB m h v)
              · intro v
                exact (hef' v).trans (efOf_stepB m h v)

theorem seedB_get (m : RCTaskMap) (v : String) :
    mapGet (seedB m) v =
      if v = END_ID then
        (mapGet m v).map (fun x =>
          { x with early_finish := x.early_start,
                   late_start := x.early_start,
                   late_finish := x.early_start })
      else mapGet m v := by
  simp only [seedB]
  apply mapGet_modify
  intro t
  rfl

theorem dom_seedB (m : RCTaskMap) : dom (seedB m) = dom m := by
  simp only [seedB]
  apply dom_modify
  intro t
  rfl

theorem predOf_seedB (m : RCTaskMap) (v : String) : predOf (seedB m) v = predOf m v := by
  rw [predOf, seedB_get]
  by_cases h : v = END_ID
  · rw [if_pos h]
    cases hg : mapGet m v <;> simp [predOf, hg]
  · rw [if_neg h]
    rfl

theorem succOf_seedB (m : RCTaskMap) (v : String) : succOf (seedB m) v = succOf m v := by
  rw [succOf, seedB_get]
  by_cases h : v = END_ID
  · rw [if_pos h]
    cases hg : mapGet m v <;> simp [succOf, hg]
  · rw [if_neg h]
    rfl

theorem durOf_seedB (m : RCTaskMap) (v : String) : durOf (seedB m) v = durOf m v := by
  rw [durOf, seedB_get]
  by_cases h : v = END_ID
  · rw [if_pos h]
    cases hg : mapGet m v <;> simp [durOf, hg]
  · rw [if_neg h]
    rfl

theorem esOf_seedB (m : RCTaskMap) (v : String) : esOf (seedB m) v = esOf m v := by
  rw [esOf, seedB_get]
  by_cases h : v = END_ID
  · rw [if_pos h]
    cases hg : mapGet m v <;> simp [esOf, hg]
  · rw [if_neg h]
    rfl

theorem efOf_seedB_ne {m : RCTaskMap} {v : String} (h : v ≠ END_ID) :
    efOf (seedB m) v = efOf m v := by
  rw [efOf, seedB_get, if_neg h, efOf]

theorem lsOf_seedB_ne {m : RCTaskMap} {v : String} (h : v ≠ END_ID) :
    lsOf (seedB m) v = lsOf m v := by
  rw [lsOf, seedB_get, if_neg h, lsOf]

theorem lfOf_seedB_ne {m : RCTaskMap} {v : String} (h : v ≠ END_ID) :
    lfOf (seedB m) v = lfOf m v := by
  rw [lfOf, seedB_get, if_neg h, lfOf]

theorem efOf_seedB_end {m : RCTaskMap} (h : END_ID ∈ dom m) :
    efOf (seedB m) END_ID = esOf m END_ID := by
  rcases mem_dom_iff.1 h with ⟨e, he⟩
  rw [efOf, seedB_get, if_pos rfl, he, esOf, he]
  rfl

theorem lsOf_seedB_end {m : RCTaskMap} (h : END_ID ∈ dom m) :
    lsOf (seedB m) END_ID = esOf m END_ID := by
  rcases mem_dom_iff.1 h with ⟨e, he⟩
  rw [lsOf, seedB_get, if_pos rfl, he, esOf, he]
  rfl

theorem lfOf_seedB_end {m : RCTaskMap} (h : END_ID ∈ dom m) :
    lfOf (seedB m) END_ID = esOf m END_ID := by
  rcases mem_dom_iff.1 h with ⟨e, he⟩
  rw [lfOf, seedB_get, if_pos rfl, he, esOf, he]
  rfl

theorem sameStruct_seedB {g m : RCTaskMap} (hs : sameStruct g m) :
    sameStruct g (seedB m) :=
  ⟨(dom_seedB m).trans hs.1,
   fun v => (predOf_seedB m v).trans (hs.2.1 v),
   fun v => (succOf_seedB m v).trans (hs.2.2.1 v),
   fun v => (durOf_seedB m v).trans (hs.2.2.2 v)⟩

theorem specLs_end {g : RCTaskMap} {ρ : String → Nat} (hwf : WFG g ρ) (M : Nat) :
    specLs g M END_ID = M := by
  rw [specLs, specLf_end hwf, hwf.durEnd]
  omega

/-- The backward pass terminates on a structurally well-formed graph whose
`END` earliest-start equals the structural makespan and whose stored
latest-starts are no smaller than their final values, and it leaves every
task at its structurally determined latest times; earliest times are
untouched except that `END`'s earliest-finish is overwritten with its
earliest-start. -/
theorem backward_correct {g : RCTaskMap} {ρ : String → Nat} (hwf : WFG g ρ)
    {m : RCTaskMap} (hs : sameStruct g m)
    (hMeq : esOf m END_ID = specEs g END_ID)
    (hMls : ∀ v ∈ dom g, v ≠ END_ID → specLs g (esOf m END_ID) v ≤ lsOf m v) :
    ∃ m', propagate_backward m = some m' ∧ sameStruct g m' ∧
      (∀ v, esOf m' v = esOf m v) ∧
      (∀ v, v ≠ END_ID → efOf m' v = efOf m v) ∧
      efOf m' END_ID = esOf m END_ID ∧
      (∀ v ∈ dom g, okB g (esOf m END_ID) m' v) := by
  have hEd : END_ID ∈ dom m := by rw [hs.1]; exact hwf.endMem
  rcases mem_dom_iff.1 hEd with ⟨e, he⟩
  have hM : specEf g END_ID ≤ esOf m END_ID := by
    have h1 : specEf g END_ID = specEs g END_ID + durOf g END_ID := rfl
    rw [hwf.durEnd] at h1
    omega
  have hep : e.pred = predOf g END_ID := by
    rw [← hs.2.1 END_ID, predOf, he]
  have hs1 : sameStruct g (seedB m) := sameStruct_seedB hs
  have hfuel : backwardFuel (seedB m) = totalWB g (predOf g END_ID) := by
    rw [backwardFuel, totalWB, hs1.2.1 END_ID]
    apply congrArg
    apply map_congr_mem
    intro u _
    rw [weightB_congr hs1, sameStruct_length hs1]
  have hInv0 : InvB g (esOf m END_ID) (predOf g END_ID)
      (List.replicate (predOf g END_ID).length 1) (seedB m) := by
    refine ⟨by simp, ?_, ?_, ?_, ?_, ?_⟩
    · exact List.pairwise_replicate.2 (Or.inr (le_refl _))
    · intro a ha b hb
      have ha2 := (List.mem_replicate.1 ha).2
      have hb2 := (List.mem_replicate.1 hb).2
      omega
    · intro v hv
      refine ⟨hwf.closedP END_ID hwf.endMem v hv, ?_⟩
      intro hvE
      subst hvE
      exact end_notin_pred hwf END_ID hv
    · intro v hv
      by_cases hvE : v = END_ID
      · subst hvE
        rw [lsOf_seedB_end hEd, specLs_end hwf]
      · rw [lsOf_seedB_ne hvE]
        exact hMls v hv hvE
    · intro v hv
      by_cases hvE : v = END_ID
      · subst hvE
        left
        intro u hu
        have huE := reachB_end hwf hu
        subst huE
        constructor
        · rw [lsOf_seedB_end hEd, specLs_end hwf]
        · rw [lfOf_seedB_end hEd, specLf_end hwf]
      · right
        rcases dcb_seed hwf (depthB g v) v hv hvE (le_refl _) with ⟨u, hu, h1, hc⟩
        exact ⟨(u, 1), mem_zip_replicate hu 1, by simp only; omega, hc⟩
  simp only [propagate_backward, he]
  rw [hep]
  rcases bwdLoop hwf hM (backwardFuel (seedB m)) (predOf g END_ID)
      (List.replicate (predOf g END_ID).length 1) (seedB m) hs1 hInv0
      (le_of_eq hfuel.symm) with ⟨m', hrun, hs', hes', hef', hok'⟩
  refine ⟨m', hrun, hs', ?_, ?_, ?_, hok'⟩
  · intro v
    exact (hes' v).trans (esOf_seedB m v)
  · intro v hv
    exact (hef' v).trans (efOf_seedB_ne hv)
  · exact (hef' END_ID).trans (efOf_seedB_end hEd)

/-! ### The graph built from a valid input sequence is well-formed -/

theorem idxOf_lt_length {v : String} : ∀ {l : List String}, v ∈ l → idxOf v l < l.length := by
  intro l hl
  induction l with
  | nil => cases hl
  | cons x xs ih =>
      rw [idxOf]
      by_cases hx : x = v
      · simp [hx]
      · rcases List.mem_cons.1 hl with rfl | h'
        · exact absurd rfl hx
        · have := ih h'
          simp only [List.length_cons, if_neg hx]
          omega

theorem idxOf_append_mem {v : String} : ∀ {l : List String} (l' : List String),
    v ∈ l → idxOf v (l ++ l') = idxOf v l := by
  intro l l' hl
  induction l with
  | nil => cases hl
  | cons x xs ih =>
      simp only [List.cons_append, idxOf]
      by_cases hx : x = v
      · simp [hx]
      · rcases List.mem_cons.1 hl with rfl | h'
        · exact absurd rfl hx
        · rw [if_neg hx, if_neg hx]
          show idxOf v (xs ++ l') + 1 = idxOf v xs + 1
          rw [ih h']

theorem idxOf_append_self {v : String} : ∀ {l : List String},
    v ∉ l → idxOf v (l ++ [v]) = l.length := by
  intro l hl
  induction l with
  | nil => simp [idxOf]
  | cons x xs ih =>
      have hx : ¬ x = v := fun he => hl (by simp [he])
      simp only [List.cons_append, idxOf, if_neg hx, List.length_cons]
      show idxOf v (xs ++ [v]) + 1 = xs.length + 1
      rw [ih (fun h => hl (by simp [h]))]

theorem dedupAcc_nodup : ∀ (l seen : List String),
    (dedupAcc l seen).Nodup ∧ ∀ x ∈ dedupAcc l seen, x ∉ seen := by
  intro l
  induction l with
  | nil => intro seen; exact ⟨List.nodup_nil, by simp [dedupAcc]⟩
  | cons x xs ih =>
      intro seen
      rw [dedupAcc]
      by_cases hx : x ∈ seen
      · rw [if_pos hx]
        exact ih seen
      · rw [if_neg hx]
        rcases ih (x :: seen) with ⟨hnd, hnotin⟩
        refine ⟨List.nodup_cons.2 ⟨?_, hnd⟩, ?_⟩
        · intro hmem
          exact hnotin x hmem (by simp)
        · intro y hy
          rcases List.mem_cons.1 hy with rfl | hy'
          · exact hx
          · intro hys
            exact hnotin y hy' (by simp [hys])

theorem dedup_nodup (l : List String) : (dedup l).Nodup := (dedupAcc_nodup l []).1

theorem dedupAcc_mem : ∀ (l seen : List String) (x : String),
    x ∈ dedupAcc l seen ↔ (x ∈ l ∧ x ∉ seen) := by
  intro l
  induction l with
  | nil => intro seen x; simp [dedupAcc]
  | cons y ys ih =>
      intro seen x
      rw [dedupAcc]
      by_cases hy : y ∈ seen
      · rw [if_pos hy, ih]
        constructor
        · rintro ⟨h1, h2⟩
          exact ⟨by simp [h1], h2⟩
        · rintro ⟨h1, h2⟩
          rcases List.mem_cons.1 h1 with rfl | h1'
          · exact absurd hy h2
          · exact ⟨h1', h2⟩
      · rw [if_neg hy]
        constructor
        · intro hmem
          rcases List.mem_cons.1 hmem with rfl | hmem'
          · exact ⟨by simp, hy⟩
          · rcases (ih (y :: seen) x).1 hmem' with ⟨h1, h2⟩
            exact ⟨by simp [h1], fun hs => h2 (by simp [hs])⟩
        · rintro ⟨h1, h2⟩
          rcases List.mem_cons.1 h1 with rfl | h1'
          · exact List.mem_cons_self _ _
          · by_cases hxy : x = y
            · subst hxy
              exact List.mem_cons_self _ _
            · exact List.mem_cons_of_mem _
                ((ih (y :: seen) x).2 ⟨h1', by simp [hxy, h2]⟩)

theorem dedup_mem (l : List String) (x : String) : x ∈ dedup l ↔ x ∈ l := by
  rw [dedup, dedupAcc_mem]
  simp

theorem mapGet_mapAll {m : RCTaskMap} {fn : Task → Task}
    (hid : ∀ t, (fn t).id = t.id) (v : String) :
    mapGet (m.map fn) v = (mapGet m v).map fn := by
  induction m with
  | nil => rfl
  | cons t m ih =>
      by_cases htv : t.id = v
      · rw [List.map_cons, mapGet, List.find?_cons_of_pos _ (by simp [hid t, htv]),
            mapGet, List.find?_cons_of_pos _ (by simpa using htv)]
        rfl
      · rw [List.map_cons, mapGet, List.find?_cons_of_neg _ (by simp [hid t, htv]),
            show mapGet (t :: m) v = mapGet m v from
              List.find?_cons_of_neg _ (by simpa using htv)]
        exact ih

theorem dom_mapAll {m : RCTaskMap} {fn : Task → Task}
    (hid : ∀ t, (fn t).id = t.id) : dom (m.map fn) = dom m := by
  simp only [dom, List.map_map]
  apply map_congr_mem
  intro t _
  simp [hid t]

theorem wireDeps_ok : ∀ (ds : List String) (m : RCTaskMap) (t : Task) (m' : RCTaskMap),
    ds.Nodup → t.id ∉ dom m → wireDeps t ds m = .ok m' →
      (∀ d ∈ ds, d ∈ dom m) ∧
      dom m' = dom m ++ [t.id] ∧
      mapGet m' t.id = some { t with pred := t.pred ++ ds } ∧
      (∀ v, v ≠ t.id → v ∉ ds → mapGet m' v = mapGet m v) ∧
      (∀ v ∈ ds, mapGet m' v =
        (mapGet m v).map (fun x => { x with succ := x.succ ++ [t.id] })) := by
  intro ds
  induction ds with
  | nil =>
      intro m t m' _ hfresh hok
      rw [wireDeps, mapInsert_fresh hfresh] at hok
      cases hok
      refine ⟨by simp, dom_append m [t], ?_, ?_, by simp⟩
      · rw [mapGet_append, mapGet_eq_none_iff.2 hfresh]
        have h1 : mapGet [t] t.id = some t := by
          rw [mapGet, List.find?_cons_of_pos _ (by simp)]
        rw [h1]
        simp
      · intro v hv _
        have h1 : mapGet [t] v = none := by
          rw [mapGet, List.find?_cons_of_neg _ ?_, List.find?_nil]
          simp only [decide_eq_true_eq]
          intro h
          exact hv h.symm
        rw [mapGet_append, h1]
        cases mapGet m v <;> rfl
  | cons d ds ih =>
      intro m t m' hnd hfresh hok
      rw [wireDeps] at hok
      cases hg : mapGet m d with
      | none => rw [hg] at hok; cases hok
      | some dt =>
          rw [hg] at hok
          have hdm : d ∈ dom m := mem_dom_iff.2 ⟨dt, hg⟩
          have hidp : ∀ x : Task,
              ((fun dt : Task => { dt with succ := dt.succ ++ [t.id] }) x).id = x.id :=
            fun x => rfl
          have hdom1 : dom (mapModify m d (fun dt : Task => { dt with succ := dt.succ ++ [t.id] })) =
              dom m := dom_modify hidp
          rcases List.nodup_cons.1 hnd with ⟨hdnotin, hnd'⟩
          rcases ih _ _ _ hnd' (by rw [hdom1]; exact hfresh) hok with
            ⟨hall, hdom', hget_t, hget_other, hget_ds⟩
          have hmod : ∀ v, v ≠ d →
              mapGet (mapModify m d (fun dt : Task => { dt with succ := dt.succ ++ [t.id] })) v =
                mapGet m v := by
            intro v hv
            rw [mapGet_modify hidp, if_neg hv]
          have hmodd :
              mapGet (mapModify m d (fun dt : Task => { dt with succ := dt.succ ++ [t.id] })) d =
                (mapGet m d).map (fun x => { x with succ := x.succ ++ [t.id] }) := by
            rw [mapGet_modify hidp, if_pos rfl]
          have hdt : d ≠ t.id := by
            intro h
            exact hfresh (h ▸ hdm)
          refine ⟨?_, by rw [hdom', hdom1], ?_, ?_, ?_⟩
          · intro d' hd'
            rcases List.mem_cons.1 hd' with rfl | hd''
            · exact hdm
            · have := hall d' hd''
              rw [hdom1] at this
              exact this
          · have h3 : ∀ p : List String, (p ++ [d]) ++ ds = p ++ d :: ds := by
              intro p
              simp
            calc mapGet m' t.id
                = some { t with pred := (t.pred ++ [d]) ++ ds } := hget_t
              _ = some { t with pred := t.pred ++ d :: ds } := by rw [h3]
          · intro v hv hvds
            rw [hget_other v hv (fun h => hvds (List.mem_cons_of_mem _ h)),
                hmod v (fun h => hvds (by rw [h]; exact List.mem_cons_self _ _))]
          · intro v hv
            rcases List.mem_cons.1 hv with rfl | hv'
            · rw [hget_other v hdt hdnotin, hmodd]
            · have hvd : v ≠ d := fun h => hdnotin (h ▸ hv')
              rw [hget_ds v hv', hmod v hvd]

theorem preWF_wireDeps {m m' : RCTaskMap} {t : Task} {ds : List String}
    (hpre : PreWF m) (hnd : ds.Nodup) (hfresh : t.id ∉ dom m)
    (ht : t.pred = [] ∧ t.succ = [] ∧ t.early_start = 0 ∧ t.early_finish = 0 ∧
          t.late_start = u32Max ∧ t.late_finish = u32Max)
    (hok : wireDeps t ds m = .ok m') : PreWF m' := by
  rcases wireDeps_ok ds m t m' hnd hfresh hok with
    ⟨hall, hdom, hget_t, hget_other, hget_ds⟩
  have hdomiff : ∀ v, v ∈ dom m' ↔ v ∈ dom m ∨ v = t.id := by
    intro v
    rw [hdom]
    simp
  have hne_of_mem : ∀ v ∈ dom m, v ≠ t.id := by
    intro v hv he
    exact hfresh (he ▸ hv)
  have hpred_new : predOf m' t.id = ds := by
    rw [predOf, hget_t, ht.1]
    rfl
  have hsucc_new : succOf m' t.id = [] := by
    rw [succOf, hget_t]
    exact ht.2.1
  have hpred_old : ∀ v, v ≠ t.id → predOf m' v = predOf m v := by
    intro v hv
    by_cases hvds : v ∈ ds
    · rw [predOf, hget_ds v hvds, predOf]
      cases mapGet m v <;> rfl
    · rw [predOf, hget_other v hv hvds, predOf]
  have hsucc_in : ∀ v ∈ ds, succOf m' v = succOf m v ++ [t.id] := by
    intro v hv
    rcases mem_dom_iff.1 (hall v hv) with ⟨x, hx⟩
    rw [succOf, hget_ds v hv, hx, succOf, hx]
    rfl
  have hsucc_out : ∀ v, v ≠ t.id → v ∉ ds → succOf m' v = succOf m v := by
    intro v hv hvds
    rw [succOf, hget_other v hv hvds, succOf]
  have hnodup' : (dom m').Nodup := by
    rw [hdom]
    refine ((List.perm_append_singleton _ _).nodup_iff).2 ?_
    exact List.nodup_cons.2 ⟨hfresh, hpre.nodup⟩
  refine ⟨hnodup', ?_, ?_, ?_, ?_, ?_⟩
  · -- predecessors closed
    intro v hv u hu
    rcases (hdomiff v).1 hv with hvm | rfl
    · rw [hpred_old v (hne_of_mem v hvm)] at hu
      exact (hdomiff u).2 (Or.inl (hpre.closedP v hvm u hu))
    · rw [hpred_new] at hu
      exact (hdomiff u).2 (Or.inl (hall u hu))
  · -- successors closed
    intro v hv u hu
    rcases (hdomiff v).1 hv with hvm | rfl
    · by_cases hvds : v ∈ ds
      · rw [hsucc_in v hvds] at hu
        rcases List.mem_append.1 hu with hu' | hu'
        · exact (hdomiff u).2 (Or.inl (hpre.closedS v hvm u hu'))
        · have he2 : u = t.id := List.mem_singleton.1 hu'
          subst he2
          exact (hdomiff t.id).2 (Or.inr rfl)
      · rw [hsucc_out v (hne_of_mem v hvm) hvds] at hu
        exact (hdomiff u).2 (Or.inl (hpre.closedS v hvm u hu))
    · rw [hsucc_new] at hu
      cases hu
  · -- symmetry
    intro u hu v hv
    rcases (hdomiff v).1 hv with hvm | rfl
    · rw [hpred_old v (hne_of_mem v hvm)]
      rcases (hdomiff u).1 hu with hum | rfl
      · by_cases huds : u ∈ ds
        · rw [hsucc_in u huds, List.mem_append]
          constructor
          · intro h1
            exact Or.inl ((hpre.sym u hum v hvm).1 h1)
          · intro h1
            rcases h1 with h1 | h1
            · exact (hpre.sym u hum v hvm).2 h1
            · rcases List.mem_singleton.1 h1 with rfl
              exact absurd hvm hfresh
        · rw [hsucc_out u (hne_of_mem u hum) huds]
          exact hpre.sym u hum v hvm
      · rw [hsucc_new]
        constructor
        · intro h1
          exact absurd (hpre.closedP v hvm _ h1) hfresh
        · intro h1
          cases h1
    · rw [hpred_new]
      rcases (hdomiff u).1 hu with hum | rfl
      · by_cases huds : u ∈ ds
        · rw [hsucc_in u huds]
          simp [huds]
        · rw [hsucc_out u (hne_of_mem u hum) huds]
          constructor
          · intro h1
            exact absurd h1 huds
          · intro h1
            exact absurd (hpre.closedS u hum _ h1) hfresh
      · rw [hsucc_new]
        constructor
        · intro h1
          exact absurd (hall _ h1) hfresh
        · intro h1
          cases h1
  · -- positions increase along edges
    intro v hv u hu
    rcases (hdomiff v).1 hv with hvm | rfl
    · rw [hpred_old v (hne_of_mem v hvm)] at hu
      have hum := hpre.closedP v hvm u hu
      rw [hdom, idxOf_append_mem _ hum, idxOf_append_mem _ hvm]
      exact hpre.posRank v hvm u hu
    · rw [hpred_new] at hu
      have hum := hall u hu
      rw [hdom, idxOf_append_mem _ hum, idxOf_append_self hfresh]
      exact idxOf_lt_length hum
  · -- initial time fields
    intro x hx
    have hxid : x.id ∈ dom m' := List.mem_map.2 ⟨x, hx, rfl⟩
    have hgx := mapGet_of_mem hnodup' hx
    rcases (hdomiff x.id).1 hxid with hxm | hxe
    · by_cases hxds : x.id ∈ ds
      · rw [hget_ds _ hxds] at hgx
        rcases mem_dom_iff.1 hxm with ⟨y, hy⟩
        rw [hy] at hgx
        have hyx : { y with succ := y.succ ++ [t.id] } = x := by
          simpa using hgx
        rcases hpre.initVals y (mapGet_id hy).2 with ⟨h1, h2, h3, h4⟩
        rw [← hyx]
        exact ⟨h1, h2, h3, h4⟩
      · rw [hget_other _ (hne_of_mem _ hxm) hxds] at hgx
        exact hpre.initVals x (mapGet_id hgx).2
    · rw [hxe, hget_t] at hgx
      have hxt : { t with pred := t.pred ++ ds } = x := by simpa using hgx
      rw [← hxt]
      exact ⟨ht.2.2.1, ht.2.2.2.1, ht.2.2.2.2.1, ht.2.2.2.2.2⟩

theorem preWF_add_entry {line : String} {m m' : RCTaskMap}
    (hpre : PreWF m) (h : add_entry line m = .ok m') : PreWF m' := by
  rw [add_entry] at h
  split at h
  · -- two fields
    rename_i id dur heq
    split at h
    · cases h
    · rename_i hdup
      split at h
      · cases h
      · rename_i duration hp
        have hfresh : id ∉ dom m := by
          intro hmem
          exact hdup (mapGet_isSome_iff.2 hmem)
        have hok : wireDeps (Task.new id duration) [] m = .ok m' := by
          rw [wireDeps]
          exact h
        exact preWF_wireDeps hpre List.nodup_nil hfresh
          ⟨rfl, rfl, rfl, rfl, rfl, rfl⟩ hok
  · -- three fields
    rename_i id dur depStr heq
    split at h
    · cases h
    · rename_i hdup
      split at h
      · cases h
      · rename_i duration hp
        have hfresh : id ∉ dom m := by
          intro hmem
          exact hdup (mapGet_isSome_iff.2 hmem)
        exact preWF_wireDeps hpre (dedup_nodup _) hfresh
          ⟨rfl, rfl, rfl, rfl, rfl, rfl⟩ h
  · cases h

theorem preWF_nil : PreWF [] := by
  refine ⟨List.nodup_nil, ?_, ?_, ?_, ?_, ?_⟩ <;> intro v hv <;> cases hv

theorem preWF_addEntries : ∀ (lines : List String) (m m' : RCTaskMap),
    PreWF m → addEntries lines m = some m' → PreWF m' := by
  intro lines
  induction lines with
  | nil =>
      intro m m' hpre h
      cases h
      exact hpre
  | cons line rest ih =>
      intro m m' hpre h
      rw [addEntries] at h
      split at h
      · rename_i m1 hm1
        exact ih m1 m' (preWF_add_entry hpre hm1) h
      · cases h

theorem add_start_char (m : RCTaskMap) (hS : START_ID ∉ dom m) :
    dom (add_start m) = dom m ++ [START_ID] ∧
    mapGet (add_start m) START_ID =
      some { Task.new START_ID 0 with
               succ := (m.filter (fun t => t.pred.isEmpty)).map (fun t => t.id) } ∧
    (∀ v, v ≠ START_ID → mapGet (add_start m) v =
      (mapGet m v).map (fun x =>
        if x.pred.isEmpty then { x with pred := x.pred ++ [START_ID] } else x)) := by
  have hid : ∀ t : Task,
      ((fun x : Task => if x.pred.isEmpty then { x with pred := x.pred ++ [START_ID] } else x) t).id
        = t.id := by
    intro t
    by_cases h : t.pred.isEmpty <;> simp [h]
  have hdomm : dom (m.map (fun x : Task =>
      if x.pred.isEmpty then { x with pred := x.pred ++ [START_ID] } else x)) = dom m :=
    dom_mapAll hid
  have hfresh : (Task.new START_ID 0).id ∉ dom (m.map (fun x : Task =>
      if x.pred.isEmpty then { x with pred := x.pred ++ [START_ID] } else x)) := by
    rw [hdomm]
    exact hS
  have hunfold : add_start m =
      (m.map (fun x : Task =>
        if x.pred.isEmpty then { x with pred := x.pred ++ [START_ID] } else x)) ++
      [{ Task.new START_ID 0 with
           succ := (m.filter (fun t => t.pred.isEmpty)).map (fun t => t.id) }] := by
    rw [add_start]
    exact mapInsert_fresh hfresh
  refine ⟨?_, ?_, ?_⟩
  · rw [hunfold, dom_append, hdomm]
    rfl
  · rw [hunfold, mapGet_append]
    have h1 : mapGet (m.map (fun x : Task =>
        if x.pred.isEmpty then { x with pred := x.pred ++ [START_ID] } else x)) START_ID = none := by
      rw [mapGet_mapAll hid, mapGet_eq_none_iff.2 hS]
      rfl
    have h2 : mapGet [{ Task.new START_ID 0 with
        succ := (m.filter (fun t => t.pred.isEmpty)).map (fun t => t.id) }] START_ID =
        some { Task.new START_ID 0 with
                 succ := (m.filter (fun t => t.pred.isEmpty)).map (fun t => t.id) } := by
      rw [mapGet, List.find?_cons_of_pos _ (by simp [Task.new])]
    rw [h1, h2]
    rfl
  · intro v hv
    rw [hunfold, mapGet_append]
    have h1 : mapGet [{ Task.new START_ID 0 with
        succ := (m.filter (fun t => t.pred.isEmpty)).map (fun t => t.id) }] v = none := by
      rw [mapGet, List.find?_cons_of_neg _ ?_, List.find?_nil]
      simp only [decide_eq_true_eq]
      intro h
      exact hv h.symm
    rw [h1, mapGet_mapAll hid]
    cases mapGet m v <;> rfl

theorem add_end_char (m : RCTaskMap) (hE : END_ID ∉ dom m) :
    dom (add_end m) = dom m ++ [END_ID] ∧
    mapGet (add_end m) END_ID =
      some { Task.new END_ID 0 with
               pred := (m.filter (fun t => t.succ.isEmpty)).map (fun t => t.id) } ∧
    (∀ v, v ≠ END_ID → mapGet (add_end m) v =
      (mapGet m v).map (fun x =>
        if x.succ.isEmpty then { x with succ := x.succ ++ [END_ID] } else x)) := by
  have hid : ∀ t : Task,
      ((fun x : Task => if x.succ.isEmpty then { x with succ := x.succ ++ [END_ID] } else x) t).id
        = t.id := by
    intro t
    by_cases h : t.succ.isEmpty <;> simp [h]
  have hdomm : dom (m.map (fun x : Task =>
      if x.succ.isEmpty then { x with succ := x.succ ++ [END_ID] } else x)) = dom m :=
    dom_mapAll hid
  have hfresh : (Task.new END_ID 0).id ∉ dom (m.map (fun x : Task =>
      if x.succ.isEmpty then { x with succ := x.succ ++ [END_ID] } else x)) := by
    rw [hdomm]
    exact hE
  have hunfold : add_end m =
      (m.map (fun x : Task =>
        if x.succ.isEmpty then { x with succ := x.succ ++ [END_ID] } else x)) ++
      [{ Task.new END_ID 0 with
           pred := (m.filter (fun t => t.succ.isEmpty)).map (fun t => t.id) }] := by
    rw [add_end]
    exact mapInsert_fresh hfresh
  refine ⟨?_, ?_, ?_⟩
  · rw [hunfold, dom_append, hdomm]
    rfl
  · rw [hunfold, mapGet_append]
    have h1 : mapGet (m.map (fun x : Task =>
        if x.succ.isEmpty then { x with succ := x.succ ++ [END_ID] } else x)) END_ID = none := by
      rw [mapGet_mapAll hid, mapGet_eq_none_iff.2 hE]
      rfl
    have h2 : mapGet [{ Task.new END_ID 0 with
        pred := (m.filter (fun t => t.succ.isEmpty)).map (fun t => t.id) }] END_ID =
        some { Task.new END_ID 0 with
                 pred := (m.filter (fun t => t.succ.isEmpty)).map (fun t => t.id) } := by
      rw [mapGet, List.find?_cons_of_pos _ (by simp [Task.new])]
    rw [h1, h2]
    rfl
  · intro v hv
    rw [hunfold, mapGet_append]
    have h1 : mapGet [{ Task.new END_ID 0 with
        pred := (m.filter (fun t => t.succ.isEmpty)).map (fun t => t.id) }] v = none := by
      rw [mapGet, List.find?_cons_of_neg _ ?_, List.find?_nil]
      simp only [decide_eq_true_eq]
      intro h
      exact hv h.symm
    rw [h1, mapGet_mapAll hid]
    cases mapGet m v <;> rfl

theorem mem_filterMap_id {m : RCTaskMap} (hnd : (dom m).Nodup) (P : Task → Bool)
    (v : String) :
    v ∈ (m.filter P).map (fun t => t.id) ↔ ∃ t, mapGet m v = some t ∧ P t := by
  constructor
  · intro h
    rcases List.mem_map.1 h with ⟨t, htf, rfl⟩
    rcases List.mem_filter.1 htf with ⟨htm, htP⟩
    exact ⟨t, mapGet_of_mem hnd htm, htP⟩
  · rintro ⟨t, hg, hP⟩
    rcases mapGet_id hg with ⟨rfl, htm⟩
    exact List.mem_map.2 ⟨t, List.mem_filter.2 ⟨htm, hP⟩, rfl⟩

theorem idxOf_getLast : ∀ (l : List String) (h : l ≠ []), l.Nodup →
    idxOf (l.getLast h) l = l.length - 1 := by
  intro l
  induction l with
  | nil => intro h; exact absurd rfl h
  | cons x xs ih =>
      intro h hnd
      cases xs with
      | nil => simp [List.getLast, idxOf]
      | cons y ys =>
          rw [List.getLast_cons (by simp)]
          have hmem : (y :: ys).getLast (by simp) ∈ y :: ys := List.getLast_mem _
          have hx : ¬ x = (y :: ys).getLast (by simp) := by
            intro he
            exact (List.nodup_cons.1 hnd).1 (he ▸ hmem)
          rw [idxOf, if_neg hx, ih (by simp) (List.nodup_cons.1 hnd).2]
          simp

theorem exists_sink {m : RCTaskMap} (hpre : PreWF m) (hne : dom m ≠ []) :
    ∃ v ∈ dom m, succOf m v = [] := by
  refine ⟨(dom m).getLast hne, List.getLast_mem hne, ?_⟩
  by_contra hsne
  rcases List.exists_mem_of_ne_nil _ hsne with ⟨u, hu⟩
  have hvd := List.getLast_mem hne
  have hud := hpre.closedS _ hvd u hu
  have hvp : (dom m).getLast hne ∈ predOf m u := (hpre.sym _ hvd u hud).2 hu
  have h0 := hpre.posRank u hud _ hvp
  have h1 : idxOf ((dom m).getLast hne) (dom m) = (dom m).length - 1 :=
    idxOf_getLast _ hne hpre.nodup
  have h2 : idxOf u (dom m) < (dom m).length := idxOf_lt_length hud
  omega

theorem dom_length (m : RCTaskMap) : (dom m).length = m.length := by
  simp [dom]

theorem add_start_accessors {m : RCTaskMap} (hS : START_ID ∉ dom m) :
    ∀ v ∈ dom m,
      predOf (add_start m) v = (if predOf m v = [] then [START_ID] else predOf m v) ∧
      succOf (add_start m) v = succOf m v ∧
      durOf (add_start m) v = durOf m v ∧
      esOf (add_start m) v = esOf m v ∧ efOf (add_start m) v = efOf m v ∧
      lsOf (add_start m) v = lsOf m v ∧ lfOf (add_start m) v = lfOf m v := by
  intro v hv
  rcases mem_dom_iff.1 hv with ⟨x, hx⟩
  have hvS : v ≠ START_ID := fun he => hS (he ▸ hv)
  have hg := (add_start_char m hS).2.2 v hvS
  rw [hx] at hg
  by_cases hxp : x.pred.isEmpty
  · have hxp' : x.pred = [] := by simpa using hxp
    have hpm : predOf m v = [] := by
      rw [predOf, hx]
      exact hxp'
    refine ⟨?_, ?_, ?_, ?_, ?_, ?_, ?_⟩ <;>
      simp [predOf, succOf, durOf, esOf, efOf, lsOf, lfOf, hg, hx, hxp, hxp', hpm]
  · have hxp' : ¬ x.pred = [] := by simpa using hxp
    have hpm : ¬ predOf m v = [] := by rw [predOf, hx]; exact hxp'
    refine ⟨?_, ?_, ?_, ?_, ?_, ?_, ?_⟩ <;>
      simp [predOf, succOf, durOf, esOf, efOf, lsOf, lfOf, hg, hx, hxp, hxp', hpm]

theorem add_start_fields {m : RCTaskMap} (hS : START_ID ∉ dom m) :
    predOf (add_start m) START_ID = [] ∧
    succOf (add_start m) START_ID = (m.filter (fun t => t.pred.isEmpty)).map (fun t => t.id) ∧
    durOf (add_start m) START_ID = 0 ∧
    esOf (add_start m) START_ID = 0 ∧ efOf (add_start m) START_ID = 0 ∧
    lsOf (add_start m) START_ID = u32Max ∧ lfOf (add_start m) START_ID = u32Max := by
  have hg := (add_start_char m hS).2.1
  refine ⟨?_, ?_, ?_, ?_, ?_, ?_, ?_⟩ <;>
    simp [predOf, succOf, durOf, esOf, efOf, lsOf, lfOf, hg, Task.new]

theorem add_end_accessors {m : RCTaskMap} (hE : END_ID ∉ dom m) :
    ∀ v ∈ dom m,
      succOf (add_end m) v = (if succOf m v = [] then [END_ID] else succOf m v) ∧
      predOf (add_end m) v = predOf m v ∧
      durOf (add_end m) v = durOf m v ∧
      esOf (add_end m) v = esOf m v ∧ efOf (add_end m) v = efOf m v ∧
      lsOf (add_end m) v = lsOf m v ∧ lfOf (add_end m) v = lfOf m v := by
  intro v hv
  rcases mem_dom_iff.1 hv with ⟨x, hx⟩
  have hvE : v ≠ END_ID := fun he => hE (he ▸ hv)
  have hg := (add_end_char m hE).2.2 v hvE
  rw [hx] at hg
  by_cases hxp : x.succ.isEmpty
  · have hxp' : x.succ = [] := by simpa using hxp
    have hpm : succOf m v = [] := by
      rw [succOf, hx]
      exact hxp'
    refine ⟨?_, ?_, ?_, ?_, ?_, ?_, ?_⟩ <;>
      simp [predOf, succOf, durOf, esOf, efOf, lsOf, lfOf, hg, hx, hxp, hxp', hpm]
  · have hxp' : ¬ x.succ = [] := by simpa using hxp
    have hpm : ¬ succOf m v = [] := by rw [succOf, hx]; exact hxp'
    refine ⟨?_, ?_, ?_, ?_, ?_, ?_, ?_⟩ <;>
      simp [predOf, succOf, durOf, esOf, efOf, lsOf, lfOf, hg, hx, hxp, hxp', hpm]

theorem add_end_fields {m : RCTaskMap} (hE : END_ID ∉ dom m) :
    succOf (add_end m) END_ID = [] ∧
    predOf (add_end m) END_ID = (m.filter (fun t => t.succ.isEmpty)).map (fun t => t.id) ∧
    durOf (add_end m) END_ID = 0 ∧
    esOf (add_end m) END_ID = 0 ∧ efOf (add_end m) END_ID = 0 ∧
    lsOf (add_end m) END_ID = u32Max ∧ lfOf (add_end m) END_ID = u32Max := by
  have hg := (add_end_char m hE).2.1
  refine ⟨?_, ?_, ?_, ?_, ?_, ?_, ?_⟩ <;>
    simp [predOf, succOf, durOf, esOf, efOf, lsOf, lfOf, hg, Task.new]

/-- The anchored graph built from a pre-anchor registry satisfying the
ingestion invariant is well-formed, with all time fields at their initial
values. -/
theorem build_wf {m0 : RCTaskMap} (hpre : PreWF m0)
    (hS : START_ID ∉ dom m0) (hE : END_ID ∉ dom m0) :
    WFG (add_end (add_start m0)) (rankOf m0) ∧
    (∀ v, esOf (add_end (add_start m0)) v = 0 ∧ efOf (add_end (add_start m0)) v = 0) ∧
    (∀ v ∈ dom (add_end (add_start m0)),
      lsOf (add_end (add_start m0)) v = u32Max ∧
      lfOf (add_end (add_start m0)) v = u32Max) := by
  have hSE : START_ID ≠ END_ID := by decide
  have hdom1 := (add_start_char m0 hS).1
  have hnd1 : (dom (add_start m0)).Nodup := by
    rw [hdom1]
    exact ((List.perm_append_singleton _ _).nodup_iff).2 (List.nodup_cons.2 ⟨hS, hpre.nodup⟩)
  have hE1 : END_ID ∉ dom (add_start m0) := by
    rw [hdom1]
    intro h
    rcases List.mem_append.1 h with h' | h'
    · exact hE h'
    · exact hSE (List.mem_singleton.1 h').symm
  have hS1 : START_ID ∈ dom (add_start m0) := by
    rw [hdom1]
    simp
  have hdom2 := (add_end_char (add_start m0) hE1).1
  have hacc1 := add_start_accessors hS
  have hfld1 := add_start_fields hS
  have hacc2 := add_end_accessors hE1
  have hfld2 := add_end_fields hE1
  have hdomg : dom (add_end (add_start m0)) = (dom m0 ++ [START_ID]) ++ [END_ID] := by
    rw [hdom2, hdom1]
  have hndg : (dom (add_end (add_start m0))).Nodup := by
    rw [hdom2]
    exact ((List.perm_append_singleton _ _).nodup_iff).2 (List.nodup_cons.2 ⟨hE1, hnd1⟩)
  have hmem1 : ∀ v ∈ dom m0, v ∈ dom (add_start m0) := by
    intro v hv
    rw [hdom1]
    exact List.mem_append_left _ hv
  have hmemg1 : ∀ v ∈ dom (add_start m0), v ∈ dom (add_end (add_start m0)) := by
    intro v hv
    rw [hdom2]
    exact List.mem_append_left _ hv
  have hmemg0 : ∀ v ∈ dom m0, v ∈ dom (add_end (add_start m0)) :=
    fun v hv => hmemg1 v (hmem1 v hv)
  have hSg : START_ID ∈ dom (add_end (add_start m0)) := hmemg1 _ hS1
  have hEg : END_ID ∈ dom (add_end (add_start m0)) := by
    rw [hdom2]
    simp
  have hreal_ne : ∀ v ∈ dom m0, v ≠ START_ID ∧ v ≠ END_ID := by
    intro v hv
    exact ⟨fun h => hS (h ▸ hv), fun h => hE (h ▸ hv)⟩
  have htri : ∀ v ∈ dom (add_end (add_start m0)),
      v ∈ dom m0 ∨ v = START_ID ∨ v = END_ID := by
    intro v hv
    rw [hdomg] at hv
    rcases List.mem_append.1 hv with h' | h'
    · rcases List.mem_append.1 h' with h'' | h''
      · exact Or.inl h''
      · exact Or.inr (Or.inl (List.mem_singleton.1 h''))
    · exact Or.inr (Or.inr (List.mem_singleton.1 h'))
  have hgp_real : ∀ v ∈ dom m0, predOf (add_end (add_start m0)) v =
      (if predOf m0 v = [] then [START_ID] else predOf m0 v) := by
    intro v hv
    rw [(hacc2 v (hmem1 v hv)).2.1, (hacc1 v hv).1]
  have hgs_real : ∀ v ∈ dom m0, succOf (add_end (add_start m0)) v =
      (if succOf m0 v = [] then [END_ID] else succOf m0 v) := by
    intro v hv
    rw [(hacc2 v (hmem1 v hv)).1, (hacc1 v hv).2.1]
  have hgd_real : ∀ v ∈ dom m0,
      durOf (add_end (add_start m0)) v = durOf m0 v := by
    intro v hv
    rw [(hacc2 v (hmem1 v hv)).2.2.1, (hacc1 v hv).2.2.1]
  have hgp_S : predOf (add_end (add_start m0)) START_ID = [] := by
    rw [(hacc2 START_ID hS1).2.1, hfld1.1]
  have hgs_S : succOf (add_end (add_start m0)) START_ID =
      (if (m0.filter (fun t => t.pred.isEmpty)).map (fun t => t.id) = [] then [END_ID]
       else (m0.filter (fun t => t.pred.isEmpty)).map (fun t => t.id)) := by
    rw [(hacc2 START_ID hS1).1, hfld1.2.1]
  have hgd_S : durOf (add_end (add_start m0)) START_ID = 0 := by
    rw [(hacc2 START_ID hS1).2.2.1, hfld1.2.2.1]
  have hgp_E := hfld2.2.1
  have hgs_E := hfld2.1
  have hgd_E := hfld2.2.2.1
  have hroots : ∀ v, v ∈ (m0.filter (fun t => t.pred.isEmpty)).map (fun t => t.id) ↔
      (v ∈ dom m0 ∧ predOf m0 v = []) := by
    intro v
    rw [mem_filterMap_id hpre.nodup]
    constructor
    · rintro ⟨t, hg, hP⟩
      refine ⟨mem_dom_iff.2 ⟨t, hg⟩, ?_⟩
      rw [predOf, hg]
      simpa using hP
    · rintro ⟨h1, h2⟩
      rcases mem_dom_iff.1 h1 with ⟨t, hg⟩
      refine ⟨t, hg, ?_⟩
      rw [predOf, hg] at h2
      simpa using h2
  have hrootssub : ∀ v ∈ (m0.filter (fun t => t.pred.isEmpty)).map (fun t => t.id),
      v ∈ dom m0 := fun v hv => ((hroots v).1 hv).1
  have hsucc1 : ∀ v ∈ dom m0, succOf (add_start m0) v = succOf m0 v :=
    fun v hv => (hacc1 v hv).2.1
  have hleaves : ∀ v, v ∈ predOf (add_end (add_start m0)) END_ID ↔
      (v ∈ dom (add_start m0) ∧ succOf (add_start m0) v = []) := by
    intro v
    rw [hgp_E, mem_filterMap_id hnd1]
    constructor
    · rintro ⟨t, hg, hP⟩
      refine ⟨mem_dom_iff.2 ⟨t, hg⟩, ?_⟩
      rw [succOf, hg]
      simpa using hP
    · rintro ⟨h1, h2⟩
      rcases mem_dom_iff.1 h1 with ⟨t, hg⟩
      refine ⟨t, hg, ?_⟩
      rw [succOf, hg] at h2
      simpa using h2
  have hleaves2 : ∀ v, v ∈ predOf (add_end (add_start m0)) END_ID ↔
      ((v ∈ dom m0 ∧ succOf m0 v = []) ∨
       (v = START_ID ∧ (m0.filter (fun t => t.pred.isEmpty)).map (fun t => t.id) = [])) := by
    intro v
    rw [hleaves]
    constructor
    · rintro ⟨h1, h2⟩
      rw [hdom1] at h1
      rcases List.mem_append.1 h1 with h' | h'
      · exact Or.inl ⟨h', by rw [← hsucc1 v h']; exact h2⟩
      · have hv : v = START_ID := List.mem_singleton.1 h'
        subst hv
        exact Or.inr ⟨rfl, by rw [← hfld1.2.1]; exact h2⟩
    · rintro (⟨h1, h2⟩ | ⟨h1, h2⟩)
      · exact ⟨hmem1 v h1, by rw [hsucc1 v h1]; exact h2⟩
      · subst h1
        exact ⟨hS1, by rw [hfld1.2.1]; exact h2⟩
  have hrS : rankOf m0 START_ID = 0 := by simp [rankOf]
  have hrE : rankOf m0 END_ID = m0.length + 1 := by
    rw [rankOf, if_neg (fun h => hSE h.symm), if_pos rfl]
  have hrReal : ∀ v ∈ dom m0, rankOf m0 v = idxOf v (dom m0) + 1 := by
    intro v hv
    rw [rankOf, if_neg (hreal_ne v hv).1, if_neg (hreal_ne v hv).2]
  have hidx : ∀ v ∈ dom m0, idxOf v (dom m0) < m0.length := by
    intro v hv
    have := idxOf_lt_length hv
    rw [dom_length] at this
    exact this
  have hlen : (add_end (add_start m0)).length = m0.length + 2 := by
    have h1 := congrArg List.length hdomg
    rw [dom_length] at h1
    rw [h1, List.length_append, List.length_append, dom_length]
    rfl
  refine ⟨⟨hndg, ?_, ?_, ?_, ?_, ?_, hSg, hgp_S, ?_, hEg, hgs_E, ?_, hgd_S, hgd_E⟩, ?_, ?_⟩
  · -- predecessors closed
    intro v hv u hu
    rcases htri v hv with hv0 | rfl | rfl
    · rw [hgp_real v hv0] at hu
      by_cases hpe : predOf m0 v = []
      · rw [if_pos hpe] at hu
        have := List.mem_singleton.1 hu
        subst this
        exact hSg
      · rw [if_neg hpe] at hu
        exact hmemg0 u (hpre.closedP v hv0 u hu)
    · rw [hgp_S] at hu
      cases hu
    · rcases (hleaves2 u).1 hu with ⟨h1, _⟩ | ⟨h1, _⟩
      · exact hmemg0 u h1
      · subst h1
        exact hSg
  · -- successors closed
    intro v hv u hu
    rcases htri v hv with hv0 | rfl | rfl
    · rw [hgs_real v hv0] at hu
      by_cases hse : succOf m0 v = []
      · rw [if_pos hse] at hu
        have := List.mem_singleton.1 hu
        subst this
        exact hEg
      · rw [if_neg hse] at hu
        exact hmemg0 u (hpre.closedS v hv0 u hu)
    · rw [hgs_S] at hu
      by_cases hre : (m0.filter (fun t => t.pred.isEmpty)).map (fun t => t.id) = []
      · rw [if_pos hre] at hu
        have := List.mem_singleton.1 hu
        subst this
        exact hEg
      · rw [if_neg hre] at hu
        exact hmemg0 u (hrootssub u hu)
    · rw [hgs_E] at hu
      cases hu
  · -- symmetry
    intro u hu v hv
    rcases htri v hv with hv0 | rfl | rfl
    · rw [hgp_real v hv0]
      rcases htri u hu with hu0 | rfl | rfl
      · rw [hgs_real u hu0]
        constructor
        · intro h
          by_cases hpe : predOf m0 v = []
          · rw [if_pos hpe] at h
            exact absurd ((List.mem_singleton.1 h) ▸ hu0) hS
          · rw [if_neg hpe] at h
            have h2 := (hpre.sym u hu0 v hv0).1 h
            have hse : ¬ succOf m0 u = [] := fun he => by
              rw [he] at h2
              cases h2
            rw [if_neg hse]
            exact h2
        · intro h
          by_cases hse : succOf m0 u = []
          · rw [if_pos hse] at h
            exact absurd ((List.mem_singleton.1 h) ▸ hv0) hE
          · rw [if_neg hse] at h
            have h2 := (hpre.sym u hu0 v hv0).2 h
            have hpe : ¬ predOf m0 v = [] := fun he => by
              rw [he] at h2
              cases h2
            rw [if_neg hpe]
            exact h2
      · rw [hgs_S]
        constructor
        · intro h
          by_cases hpe : predOf m0 v = []
          · have hvr : v ∈ (m0.filter (fun t => t.pred.isEmpty)).map (fun t => t.id) :=
              (hroots v).2 ⟨hv0, hpe⟩
            rw [if_neg (List.ne_nil_of_mem hvr)]
            exact hvr
          · rw [if_neg hpe] at h
            exact absurd (hpre.closedP v hv0 _ h) hS
        · intro h
          by_cases hre : (m0.filter (fun t => t.pred.isEmpty)).map (fun t => t.id) = []
          · rw [if_pos hre] at h
            exact absurd ((List.mem_singleton.1 h) ▸ hv0) hE
          · rw [if_neg hre] at h
            have hpe := ((hroots v).1 h).2
            rw [if_pos hpe]
            simp
      · rw [hgs_E]
        constructor
        · intro h
          by_cases hpe : predOf m0 v = []
          · rw [if_pos hpe] at h
            exact absurd (List.mem_singleton.1 h) (fun he => hSE he.symm)
          · rw [if_neg hpe] at h
            exact absurd (hpre.closedP v hv0 _ h) hE
        · intro h
          cases h
    · rw [hgp_S]
      constructor
      · intro h
        cases h
      · intro h
        exfalso
        rcases htri u hu with hu0 | rfl | rfl
        · rw [hgs_real u hu0] at h
          by_cases hse : succOf m0 u = []
          · rw [if_pos hse] at h
            exact hSE (List.mem_singleton.1 h)
          · rw [if_neg hse] at h
            exact hS (hpre.closedS u hu0 _ h)
        · rw [hgs_S] at h
          by_cases hre : (m0.filter (fun t => t.pred.isEmpty)).map (fun t => t.id) = []
          · rw [if_pos hre] at h
            exact hSE (List.mem_singleton.1 h)
          · rw [if_neg hre] at h
            exact hS (hrootssub _ h)
        · rw [hgs_E] at h
          cases h
    · rw [hleaves2]
      rcases htri u hu with hu0 | rfl | rfl
      · rw [hgs_real u hu0]
        constructor
        · rintro (⟨_, h2⟩ | ⟨h1, _⟩)
          · rw [if_pos h2]
            simp
          · exact absurd (h1 ▸ hu0) hS
        · intro h
          by_cases hse : succOf m0 u = []
          · exact Or.inl ⟨hu0, hse⟩
          · rw [if_neg hse] at h
            exact absurd (hpre.closedS u hu0 _ h) hE
      · rw [hgs_S]
        constructor
        · rintro (⟨h1, _⟩ | ⟨_, h2⟩)
          · exact absurd h1 hS
          · rw [if_pos h2]
            simp
        · intro h
          by_cases hre : (m0.filter (fun t => t.pred.isEmpty)).map (fun t => t.id) = []
          · exact Or.inr ⟨rfl, hre⟩
          · rw [if_neg hre] at h
            exact absurd (hrootssub _ h) hE
      · rw [hgs_E]
        constructor
        · rintro (⟨h1, _⟩ | ⟨h1, _⟩)
          · exact absurd h1 hE
          · exact absurd h1.symm hSE
        · intro h
          cases h
  · -- rank increases along edges
    intro v hv u hu
    rcases htri v hv with hv0 | rfl | rfl
    · rw [hgp_real v hv0] at hu
      by_cases hpe : predOf m0 v = []
      · rw [if_pos hpe] at hu
        have := List.mem_singleton.1 hu
        subst this
        rw [hrS, hrReal v hv0]
        omega
      · rw [if_neg hpe] at hu
        have hu0 := hpre.closedP v hv0 u hu
        rw [hrReal v hv0, hrReal u hu0]
        have := hpre.posRank v hv0 u hu
        omega
    · rw [hgp_S] at hu
      cases hu
    · rw [hrE]
      rcases (hleaves2 u).1 hu with ⟨h1, _⟩ | ⟨h1, _⟩
      · rw [hrReal u h1]
        have := hidx u h1
        omega
      · subst h1
        rw [hrS]
        omega
  · -- rank bound
    intro v hv
    rw [hlen]
    rcases htri v hv with hv0 | rfl | rfl
    · rw [hrReal v hv0]
      have := hidx v hv0
      omega
    · rw [hrS]
      omega
    · rw [hrE]
      omega
  · -- every non-START task has a predecessor
    intro v hv hne
    rcases htri v hv with hv0 | rfl | rfl
    · rw [hgp_real v hv0]
      by_cases hpe : predOf m0 v = [] <;> simp [hpe]
    · exact absurd rfl hne
    · by_cases hd0 : dom m0 = []
      · have hm0 : m0 = [] := by
          cases m0 with
          | nil => rfl
          | cons t m => cases hd0
        intro hcon
        have hmem : START_ID ∈ predOf (add_end (add_start m0)) END_ID := by
          rw [hleaves2]
          right
          refine ⟨rfl, ?_⟩
          rw [hm0]
          rfl
        rw [hcon] at hmem
        cases hmem
      · rcases exists_sink hpre hd0 with ⟨w, hw, hsw⟩
        intro hcon
        have hmem : w ∈ predOf (add_end (add_start m0)) END_ID := by
          rw [hleaves2]
          exact Or.inl ⟨hw, hsw⟩
        rw [hcon] at hmem
        cases hmem
  · -- every non-END task has a successor
    intro v hv hne
    rcases htri v hv with hv0 | rfl | rfl
    · rw [hgs_real v hv0]
      by_cases hse : succOf m0 v = [] <;> simp [hse]
    · rw [hgs_S]
      by_cases hre : (m0.filter (fun t => t.pred.isEmpty)).map (fun t => t.id) = [] <;>
        simp [hre]
    · exact absurd rfl hne
  · -- earliest fields are zero
    intro v
    by_cases hvg : v ∈ dom (add_end (add_start m0))
    · rcases htri v hvg with hv0 | rfl | rfl
      · rcases mem_dom_iff.1 hv0 with ⟨x, hx⟩
        rcases hpre.initVals x (mapGet_id hx).2 with ⟨h1, h2, _, _⟩
        have he : esOf m0 v = 0 := by
          rw [esOf, hx]
          exact h1
        have hf : efOf m0 v = 0 := by
          rw [efOf, hx]
          exact h2
        constructor
        · rw [(hacc2 v (hmem1 v hv0)).2.2.2.1, (hacc1 v hv0).2.2.2.1, he]
        · rw [(hacc2 v (hmem1 v hv0)).2.2.2.2.1, (hacc1 v hv0).2.2.2.2.1, hf]
      · constructor
        · rw [(hacc2 START_ID hS1).2.2.2.1, hfld1.2.2.2.1]
        · rw [(hacc2 START_ID hS1).2.2.2.2.1, hfld1.2.2.2.2.1]
      · exact ⟨hfld2.2.2.2.1, hfld2.2.2.2.2.1⟩
    · have hnone := mapGet_eq_none_iff.2 hvg
      constructor
      · rw [esOf, hnone]
      · rw [efOf, hnone]
  · -- latest fields are at the sentinel
    intro v hvg
    rcases htri v hvg with hv0 | rfl | rfl
    · rcases mem_dom_iff.1 hv0 with ⟨x, hx⟩
      rcases hpre.initVals x (mapGet_id hx).2 with ⟨_, _, h3, h4⟩
      have hl : lsOf m0 v = u32Max := by
        rw [lsOf, hx]
        exact h3
      have hl2 : lfOf m0 v = u32Max := by
        rw [lfOf, hx]
        exact h4
      constructor
      · rw [(hacc2 v (hmem1 v hv0)).2.2.2.2.2.1, (hacc1 v hv0).2.2.2.2.2.1, hl]
      · rw [(hacc2 v (hmem1 v hv0)).2.2.2.2.2.2, (hacc1 v hv0).2.2.2.2.2.2, hl2]
    · constructor
      · rw [(hacc2 START_ID hS1).2.2.2.2.2.1, hfld1.2.2.2.2.2.1]
      · rw [(hacc2 START_ID hS1).2.2.2.2.2.2, hfld1.2.2.2.2.2.2]
    · exact ⟨hfld2.2.2.2.2.2.1, hfld2.2.2.2.2.2.2⟩

/-! ### The critical chain reaches back to START -/

theorem specEs_start {g : RCTaskMap} {ρ : String → Nat} (hwf : WFG g ρ) :
    specEs g START_ID = 0 := by
  rw [specEs_eq hwf hwf.startMem, hwf.startPred]
  rfl

theorem critical_pred {g : RCTaskMap} {ρ : String → Nat} (hwf : WFG g ρ)
    {M : Nat} (hM : specEf g END_ID ≤ M) {v : String} (hv : v ∈ dom g)
    (hne : v ≠ START_ID)
    (hc : specEs g v = specLs g M v ∧ specEf g v = specLf g M v) :
    ∃ u ∈ predOf g v, specEs g u = specLs g M u ∧ specEf g u = specLf g M u := by
  have hpne : predOf g v ≠ [] := hwf.predNE v hv hne
  have hmm : optMax ((predOf g v).map (fun u => specEf g u)) ∈
      (predOf g v).map (fun u => specEf g u) := optMax_mem (by simpa using hpne)
  rcases List.mem_map.1 hmm with ⟨u, hu, he⟩
  have hatt : specEf g u = specEs g v := by
    rw [specEs_eq hwf hv]
    exact he
  have hud : u ∈ dom g := hwf.closedP v hv u hu
  have huE : u ≠ END_ID := by
    intro h
    subst h
    exact end_notin_pred hwf v hu
  have h1 : specLf g M u ≤ specLs g M v := by
    rw [specLf_eq hwf hud huE]
    exact optMin_le (List.mem_map.2 ⟨v, (hwf.sym u hud v hv).1 hu, rfl⟩)
  have h2 : specEf g u ≤ specLf g M u :=
    specEf_le_specLf hwf hM (depthB g u) u hud (le_refl _)
  have h3 : specLf g M u = specEf g u := by
    rw [hatt, hc.1]
    omega
  refine ⟨u, hu, ?_, h3.symm⟩
  have h4 : specEf g u = specEs g u + durOf g u := rfl
  rw [specLs, h3]
  omega

theorem start_critical {g : RCTaskMap} {ρ : String → Nat} (hwf : WFG g ρ) :
    specEs g START_ID = specLs g (specEs g END_ID) START_ID ∧
    specEf g START_ID = specLf g (specEs g END_ID) START_ID := by
  have hM : specEf g END_ID ≤ specEs g END_ID := by
    have h1 : specEf g END_ID = specEs g END_ID + durOf g END_ID := rfl
    rw [hwf.durEnd] at h1
    omega
  have hEndCrit : specEs g END_ID = specLs g (specEs g END_ID) END_ID ∧
      specEf g END_ID = specLf g (specEs g END_ID) END_ID := by
    constructor
    · rw [specLs_end hwf]
    · rw [specLf_end hwf]
      have h1 : specEf g END_ID = specEs g END_ID + durOf g END_ID := rfl
      rw [hwf.durEnd] at h1
      omega
  have hmain : ∀ n v, v ∈ dom g → ρ v ≤ n →
      (specEs g v = specLs g (specEs g END_ID) v ∧
       specEf g v = specLf g (specEs g END_ID) v) →
      specEs g START_ID = specLs g (specEs g END_ID) START_ID ∧
      specEf g START_ID = specLf g (specEs g END_ID) START_ID := by
    intro n
    induction n with
    | zero =>
        intro v hv h0 hc
        by_cases hvs : v = START_ID
        · subst hvs
          exact hc
        · rcases critical_pred hwf hM hv hvs hc with ⟨u, hu, _⟩
          have := hwf.rankP v hv u hu
          omega
    | succ n ih =>
        intro v hv hn hc
        by_cases hvs : v = START_ID
        · subst hvs
          exact hc
        · rcases critical_pred hwf hM hv hvs hc with ⟨u, hu, hcu⟩
          have hud := hwf.closedP v hv u hu
          have := hwf.rankP v hv u hu
          exact ih u hud (by omega) hcu
  exact hmain (ρ END_ID) END_ID hwf.endMem (le_refl _) hEndCrit

/-! ### Pipeline facts shared by the claims about the propagated graph -/

theorem buildValid_wf {lines : List String} {g : RCTaskMap}
    (h : buildValid? lines = some g) :
    ∃ m0, addEntries lines [] = some m0 ∧ START_ID ∉ dom m0 ∧ END_ID ∉ dom m0 ∧
      g = add_end (add_start m0) ∧ WFG g (rankOf m0) ∧
      (∀ v, esOf g v = 0 ∧ efOf g v = 0) ∧
      (∀ v ∈ dom g, lsOf g v = u32Max ∧ lfOf g v = u32Max) := by
  rw [buildValid?] at h
  split at h
  · cases h
  · rename_i m0 hm0
    split at h
    · cases h
    · rename_i hmem
      have hS : START_ID ∉ dom m0 := fun hc => hmem (Or.inl hc)
      have hE : END_ID ∉ dom m0 := fun hc => hmem (Or.inr hc)
      cases h
      have hpre := preWF_addEntries lines [] m0 preWF_nil hm0
      rcases build_wf hpre hS hE with ⟨hwf, hvals, hlate⟩
      exact ⟨m0, hm0, hS, hE, rfl, hwf, hvals, hlate⟩

theorem pipeline_spec {lines : List String} {g g1 : RCTaskMap}
    (hb : buildValid? lines = some g)
    (hf : propagate_forward g = some g1) (hmk : esOf g1 END_ID ≤ u32Max) :
    ∃ g2, propagate_backward g1 = some g2 ∧
    ∃ ρ, WFG g ρ ∧ sameStruct g g1 ∧ sameStruct g g2 ∧
      (∀ v ∈ dom g, esOf g1 v = specEs g v) ∧
      (∀ v ∈ dom g, efOf g1 v = specEf g v) ∧
      (∀ v ∈ dom g, esOf g2 v = specEs g v) ∧
      (∀ v ∈ dom g, efOf g2 v = specEf g v) ∧
      (∀ v ∈ dom g, lsOf g2 v = specLs g (specEs g END_ID) v) ∧
      (∀ v ∈ dom g, lfOf g2 v = specLf g (specEs g END_ID) v) ∧
      esOf g1 END_ID = specEs g END_ID ∧
      specEs g END_ID ≤ u32Max := by
  rcases buildValid_wf hb with ⟨m0, _, _, _, _, hwf, hvals, hlate⟩
  rcases forward_correct hwf (sameStruct_refl g) with ⟨g1', hrun, hs1, hls1, hlf1, hok1⟩
  rw [hf] at hrun
  cases hrun
  have hokE := hok1 END_ID hwf.endMem
  have hM : specEf g END_ID ≤ esOf g1 END_ID := by
    rw [hokE.1]
    have h1 : specEf g END_ID = specEs g END_ID + durOf g END_ID := rfl
    rw [hwf.durEnd] at h1
    omega
  have hmk' : specEs g END_ID ≤ u32Max := by
    rw [← hokE.1]
    exact hmk
  have hMls : ∀ v ∈ dom g, v ≠ END_ID →
      specLs g (esOf g1 END_ID) v ≤ lsOf g1 v := by
    intro v hv hvE
    rw [hls1 v, (hlate v hv).1]
    have h1 : specLf g (esOf g1 END_ID) v ≤ esOf g1 END_ID :=
      specLf_le_M hwf _ (depthB g v) v hv (le_refl _)
    have h2 : specLs g (esOf g1 END_ID) v ≤ specLf g (esOf g1 END_ID) v :=
      Nat.sub_le _ _
    have h3 := hokE.1
    omega
  rcases backward_correct hwf hs1 hokE.1 hMls with
    ⟨g2, hrun2, hs2, hes2, hef2, hefE2, hok2⟩
  rw [hokE.1] at hok2
  refine ⟨g2, hrun2, rankOf m0, hwf, hs1, hs2, ?_, ?_, ?_, ?_, ?_, ?_, hokE.1, hmk'⟩
  · intro v hv
    exact (hok1 v hv).1
  · intro v hv
    exact (hok1 v hv).2
  · intro v hv
    rw [hes2 v]
    exact (hok1 v hv).1
  · intro v hv
    by_cases hvE : v = END_ID
    · subst hvE
      rw [hefE2, hokE.1]
      have h1 : specEf g END_ID = specEs g END_ID + durOf g END_ID := rfl
      rw [hwf.durEnd] at h1
      omega
    · rw [hef2 v hvE]
      exact (hok1 v hv).2
  · intro v hv
    exact (hok2 v hv).1
  · intro v hv
    exact (hok2 v hv).2

/-! ### The claims about the propagation passes -/

/-- C1: after `propagate_forward` runs on a graph built by `add_entry`,
`add_start` and `add_end` from a valid input sequence (acyclic,
dependencies inserted before dependents), every task's earliest-start
equals the maximum earliest-finish among all of its predecessors (0 for
`START`, the only task with no predecessors), and every task's
earliest-finish equals its earliest-start plus its duration.  (The
hypothesis `esOf g1 END_ID ≤ u32Max` scopes the claim to runs whose
makespan is representable in `u32`: every earliest-finish is bounded by
the makespan, so on that scope the `Nat` model of the source's `u32`
addition `early_start + duration` is exact and the source's run really
completes.) -/
theorem C1_forward_fixpoint (lines : List String) (g g1 : RCTaskMap)
    (hb : buildValid? lines = some g)
    (hf : propagate_forward g = some g1)
    (hmk : esOf g1 END_ID ≤ u32Max) :
    (∀ v ∈ dom g1,
      esOf g1 v = optMax ((predOf g1 v).map (fun u => efOf g1 u)) ∧
      efOf g1 v = esOf g1 v + durOf g1 v) ∧
    predOf g1 START_ID = [] ∧ esOf g1 START_ID = 0 ∧
    (∀ v ∈ dom g1, predOf g1 v = [] → v = START_ID) := by
  rcases buildValid_wf hb with ⟨m0, _, _, _, _, hwf, _, _⟩
  rcases forward_correct hwf (sameStruct_refl g) with ⟨g1', hrun, hs1, _, _, hok⟩
  rw [hrun] at hf
  have hg1 : g1' = g1 := by injection hf
  subst hg1
  have hdom : dom g1' = dom g := hs1.1
  refine ⟨?_, ?_, ?_, ?_⟩
  · intro v hv
    rw [hdom] at hv
    have hok_v := hok v hv
    constructor
    · rw [hok_v.1, hs1.2.1 v, specEs_eq hwf hv]
      congr 1
      apply map_congr_mem
      intro u hu
      exact ((hok u (hwf.closedP v hv u hu)).2).symm
    · rw [hok_v.2, hok_v.1, hs1.2.2.2 v]
      rfl
  · rw [hs1.2.1 _, hwf.startPred]
  · rw [(hok START_ID hwf.startMem).1, specEs_start hwf]
  · intro v hv hp
    rw [hdom] at hv
    rw [hs1.2.1 v] at hp
    by_contra hne
    exact hwf.predNE v hv hne hp

theorem C1_witness : buildValid? ["A 2"] = some gA ∧
    propagate_forward gA = some gA1 ∧ esOf gA1 END_ID ≤ u32Max ∧
    ((∀ v ∈ dom gA1,
        esOf gA1 v = optMax ((predOf gA1 v).map (fun u => efOf gA1 u)) ∧
        efOf gA1 v = esOf gA1 v + durOf gA1 v) ∧
      predOf gA1 START_ID = [] ∧ esOf gA1 START_ID = 0 ∧
      (∀ v ∈ dom gA1, predOf gA1 v = [] → v = START_ID)) :=
  ⟨rfl, rfl, by decide, C1_forward_fixpoint ["A 2"] gA gA1 rfl rfl (by decide)⟩

/-- C2: after `propagate_backward` runs on a graph already processed by
`propagate_forward`, `END`'s earliest-finish, latest-start and
latest-finish all equal `END`'s earliest-start (the project makespan),
and every other task's latest-finish equals the minimum latest-start
among its successors with latest-finish minus latest-start equal to its
duration.  (The hypothesis `esOf g1 END_ID ≤ u32Max` scopes the claim to
runs whose makespan is representable in `u32`, which the source's
`u32::MAX` sentinel presupposes.) -/
theorem C2_backward_fixpoint (lines : List String) (g g1 : RCTaskMap)
    (hb : buildValid? lines = some g) (hf : propagate_forward g = some g1)
    (hmk : esOf g1 END_ID ≤ u32Max) :
    ∃ g2, propagate_backward g1 = some g2 ∧
      efOf g2 END_ID = esOf g2 END_ID ∧
      lsOf g2 END_ID = esOf g2 END_ID ∧
      lfOf g2 END_ID = esOf g2 END_ID ∧
      (∀ v ∈ dom g2, v ≠ END_ID →
        lfOf g2 v = optMin ((succOf g2 v).map (fun s => lsOf g2 s)) ∧
        lfOf g2 v - lsOf g2 v = durOf g2 v) := by
  rcases pipeline_spec hb hf hmk with
    ⟨g2, hbw, ρ, hwf, hs1, hs2, hes1, hef1, hes2, hef2, hls2, hlf2, hEeq, hmk'⟩
  have hM : specEf g END_ID ≤ specEs g END_ID := by
    have h1 : specEf g END_ID = specEs g END_ID + durOf g END_ID := rfl
    rw [hwf.durEnd] at h1
    omega
  have hesE : esOf g2 END_ID = specEs g END_ID := hes2 END_ID hwf.endMem
  refine ⟨g2, hbw, ?_, ?_, ?_, ?_⟩
  · rw [hef2 END_ID hwf.endMem, hesE]
    have h1 : specEf g END_ID = specEs g END_ID + durOf g END_ID := rfl
    rw [hwf.durEnd] at h1
    omega
  · rw [hls2 END_ID hwf.endMem, hesE, specLs_end hwf]
  · rw [hlf2 END_ID hwf.endMem, hesE, specLf_end hwf]
  · intro v hv hvE
    rw [hs2.1] at hv
    constructor
    · rw [hlf2 v hv, hs2.2.2.1 v, specLf_eq hwf hv hvE]
      congr 1
      apply map_congr_mem
      intro s hsm
      exact (hls2 s (hwf.closedS v hv s hsm)).symm
    · rw [hlf2 v hv, hls2 v hv, hs2.2.2.2 v, specLs]
      have h1 := specEf_le_specLf hwf hM (depthB g v) v hv (le_refl _)
      have h2 : specEf g v = specEs g v + durOf g v := rfl
      omega

theorem C2_witness : buildValid? ["A 2"] = some gA ∧
    propagate_forward gA = some gA1 ∧ esOf gA1 END_ID ≤ u32Max ∧
    (∃ g2, propagate_backward gA1 = some g2 ∧
      efOf g2 END_ID = esOf g2 END_ID ∧
      lsOf g2 END_ID = esOf g2 END_ID ∧
      lfOf g2 END_ID = esOf g2 END_ID ∧
      (∀ v ∈ dom g2, v ≠ END_ID →
        lfOf g2 v = optMin ((succOf g2 v).map (fun s => lsOf g2 s)) ∧
        lfOf g2 v - lsOf g2 v = durOf g2 v)) :=
  ⟨rfl, rfl, by decide, C2_backward_fixpoint ["A 2"] gA gA1 rfl rfl (by decide)⟩

/-- C3: after both propagation passes on a graph built from a valid input
sequence, every task satisfies earliest-start ≤ latest-start and
earliest-finish ≤ latest-finish (slack is non-negative), and `START`
satisfies earliest-start = latest-start = 0. -/
theorem C3_slack_nonneg (lines : List String) (g g1 : RCTaskMap)
    (hb : buildValid? lines = some g) (hf : propagate_forward g = some g1)
    (hmk : esOf g1 END_ID ≤ u32Max) :
    ∃ g2, propagate_backward g1 = some g2 ∧
      (∀ v ∈ dom g2, esOf g2 v ≤ lsOf g2 v ∧ efOf g2 v ≤ lfOf g2 v) ∧
      esOf g2 START_ID = 0 ∧ lsOf g2 START_ID = 0 := by
  rcases pipeline_spec hb hf hmk with
    ⟨g2, hbw, ρ, hwf, hs1, hs2, hes1, hef1, hes2, hef2, hls2, hlf2, hEeq, hmk'⟩
  have hM : specEf g END_ID ≤ specEs g END_ID := by
    have h1 : specEf g END_ID = specEs g END_ID + durOf g END_ID := rfl
    rw [hwf.durEnd] at h1
    omega
  refine ⟨g2, hbw, ?_, ?_, ?_⟩
  · intro v hv
    rw [hs2.1] at hv
    have h1 := specEf_le_specLf hwf hM (depthB g v) v hv (le_refl _)
    have h2 : specEf g v = specEs g v + durOf g v := rfl
    constructor
    · rw [hes2 v hv, hls2 v hv, specLs]
      omega
    · rw [hef2 v hv, hlf2 v hv]
      exact h1
  · rw [hes2 START_ID hwf.startMem, specEs_start hwf]
  · rw [hls2 START_ID hwf.startMem, ← (start_critical hwf).1, specEs_start hwf]

theorem C3_witness : buildValid? ["A 2"] = some gA ∧
    propagate_forward gA = some gA1 ∧ esOf gA1 END_ID ≤ u32Max ∧
    (∃ g2, propagate_backward gA1 = some g2 ∧
      (∀ v ∈ dom g2, esOf g2 v ≤ lsOf g2 v ∧ efOf g2 v ≤ lfOf g2 v) ∧
      esOf g2 START_ID = 0 ∧ lsOf g2 START_ID = 0) :=
  ⟨rfl, rfl, by decide, C3_slack_nonneg ["A 2"] gA gA1 rfl rfl (by decide)⟩

/-- C7: during `propagate_backward` on a valid, forward-processed graph,
the unsigned subtraction `late_finish - duration` never underflows.  The
model makes the subtraction site abort (return `none`, the
checked-arithmetic panic) whenever `duration > late_finish`, so the run
finishing with `some` states exactly that every dequeued task satisfied
duration ≤ latest-finish; in addition every task's final latest-finish
dominates its duration. -/
theorem C7_no_underflow (lines : List String) (g g1 : RCTaskMap)
    (hb : buildValid? lines = some g) (hf : propagate_forward g = some g1)
    (hmk : esOf g1 END_ID ≤ u32Max) :
    ∃ g2, propagate_backward g1 = some g2 ∧
      (∀ v ∈ dom g2, durOf g2 v ≤ lfOf g2 v) := by
  rcases pipeline_spec hb hf hmk with
    ⟨g2, hbw, ρ, hwf, hs1, hs2, hes1, hef1, hes2, hef2, hls2, hlf2, hEeq, hmk'⟩
  have hM : specEf g END_ID ≤ specEs g END_ID := by
    have h1 : specEf g END_ID = specEs g END_ID + durOf g END_ID := rfl
    rw [hwf.durEnd] at h1
    omega
  refine ⟨g2, hbw, ?_⟩
  intro v hv
  rw [hs2.1] at hv
  have h1 := specEf_le_specLf hwf hM (depthB g v) v hv (le_refl _)
  have h2 : specEf g v = specEs g v + durOf g v := rfl
  rw [hlf2 v hv, hs2.2.2.2 v]
  omega

theorem C7_witness : buildValid? ["A 2"] = some gA ∧
    propagate_forward gA = some gA1 ∧ esOf gA1 END_ID ≤ u32Max ∧
    (∃ g2, propagate_backward gA1 = some g2 ∧
      (∀ v ∈ dom g2, durOf g2 v ≤ lfOf g2 v)) :=
  ⟨rfl, rfl, by decide, C7_no_underflow ["A 2"] gA gA1 rfl rfl (by decide)⟩

/-- C9: re-running `propagate_forward` and then `propagate_backward` on a
graph that has already been propagated, with no structural change, leaves
every task's earliest-start, earliest-finish, latest-start and
latest-finish unchanged (and both reruns terminate normally). -/
theorem C9_idempotent (lines : List String) (g g1 g2 : RCTaskMap)
    (hb : buildValid? lines = some g) (hf : propagate_forward g = some g1)
    (hmk : esOf g1 END_ID ≤ u32Max) (hbw : propagate_backward g1 = some g2) :
    ∃ g3 g4, propagate_forward g2 = some g3 ∧ propagate_backward g3 = some g4 ∧
      ∀ v ∈ dom g2,
        esOf g4 v = esOf g2 v ∧ efOf g4 v = efOf g2 v ∧
        lsOf g4 v = lsOf g2 v ∧ lfOf g4 v = lfOf g2 v := by
  rcases pipeline_spec hb hf hmk with
    ⟨g2', hbw', ρ, hwf, hs1, hs2, hes1, hef1, hes2, hef2, hls2, hlf2, hEeq, hmk'⟩
  rw [hbw] at hbw'
  cases hbw'
  rcases forward_correct hwf hs2 with ⟨g3, hrun3, hs3, hls3, hlf3, hok3⟩
  have hesE3 : esOf g3 END_ID = specEs g END_ID := (hok3 END_ID hwf.endMem).1
  have hMls3 : ∀ v ∈ dom g, v ≠ END_ID →
      specLs g (esOf g3 END_ID) v ≤ lsOf g3 v := by
    intro v hv hvE
    rw [hls3 v, hls2 v hv, hesE3]
  rcases backward_correct hwf hs3 hesE3 hMls3 with
    ⟨g4, hrun4, hs4, hes4, hef4, hefE4, hok4⟩
  rw [hesE3] at hok4
  refine ⟨g3, g4, hrun3, hrun4, ?_⟩
  intro v hv
  rw [hs2.1] at hv
  refine ⟨?_, ?_, ?_, ?_⟩
  · rw [hes4 v, (hok3 v hv).1, hes2 v hv]
  · by_cases hvE : v = END_ID
    · subst hvE
      rw [hefE4, hesE3, hef2 END_ID hwf.endMem]
      have h1 : specEf g END_ID = specEs g END_ID + durOf g END_ID := rfl
      rw [hwf.durEnd] at h1
      omega
    · rw [hef4 v hvE, (hok3 v hv).2, hef2 v hv]
  · rw [(hok4 v hv).1, hls2 v hv]
  · rw [(hok4 v hv).2, hlf2 v hv]

theorem C9_witness : buildValid? ["A 2"] = some gA ∧
    propagate_forward gA = some gA1 ∧ esOf gA1 END_ID ≤ u32Max ∧
    propagate_backward gA1 = some gA2 ∧
    (∃ g3 g4, propagate_forward gA2 = some g3 ∧ propagate_backward g3 = some g4 ∧
      ∀ v ∈ dom gA2,
        esOf g4 v = esOf gA2 v ∧ efOf g4 v = efOf gA2 v ∧
        lsOf g4 v = lsOf gA2 v ∧ lfOf g4 v = lfOf gA2 v) :=
  ⟨rfl, rfl, by decide, rfl,
   C9_idempotent ["A 2"] gA gA1 gA2 rfl rfl (by decide) rfl⟩

/-! ### The critical-task extractor -/

theorem insertByES_perm (t : Task) (l : List Task) :
    (insertByES t l).Perm (t :: l) := by
  induction l with
  | nil => exact List.Perm.refl _
  | cons h l ih =>
      rw [insertByES]
      by_cases hc : h.early_start ≤ t.early_start
      · rw [if_pos hc]
        exact (ih.cons h).trans (List.Perm.swap _ _ _)
      · rw [if_neg hc]

theorem sortByES_perm (l : List Task) : (sortByES l).Perm l := by
  induction l with
  | nil => exact List.Perm.refl _
  | cons t l ih =>
      rw [sortByES]
      exact (insertByES_perm t (sortByES l)).trans (ih.cons t)

theorem insertByES_sorted {t : Task} {l : List Task}
    (h : List.Sorted (fun a b : Task => a.early_start ≤ b.early_start) l) :
    List.Sorted (fun a b : Task => a.early_start ≤ b.early_start) (insertByES t l) := by
  induction l with
  | nil => simp [insertByES]
  | cons x l ih =>
      rw [insertByES]
      rcases List.sorted_cons.1 h with ⟨hx, hl⟩
      by_cases hc : x.early_start ≤ t.early_start
      · rw [if_pos hc]
        refine List.sorted_cons.2 ⟨?_, ih hl⟩
        intro b hb
        have hb2 : b ∈ t :: l := (insertByES_perm t l).mem_iff.1 hb
        rcases List.mem_cons.1 hb2 with rfl | hb3
        · exact hc
        · exact hx b hb3
      · rw [if_neg hc]
        refine List.sorted_cons.2 ⟨?_, h⟩
        intro b hb
        rcases List.mem_cons.1 hb with rfl | hb3
        · omega
        · have := hx b hb3
          omega

theorem sortByES_sorted (l : List Task) :
    List.Sorted (fun a b : Task => a.early_start ≤ b.early_start) (sortByES l) := by
  induction l with
  | nil => simp [sortByES]
  | cons t l ih => exact insertByES_sorted ih

theorem is_critical_iff (t : Task) :
    t.is_critical = true ↔
      (t.early_start = t.late_start ∧ t.early_finish = t.late_finish) := by
  simp [Task.is_critical]

/-- C4: after both propagation passes, `get_critical_tasks` returns
exactly the identifiers of the tasks with earliest-start = latest-start
and earliest-finish = latest-finish, sorted ascending by earliest-start,
and the result always contains both `START` and `END`. -/
theorem C4_critical_tasks (lines : List String) (g g1 : RCTaskMap)
    (hb : buildValid? lines = some g) (hf : propagate_forward g = some g1)
    (hmk : esOf g1 END_ID ≤ u32Max) :
    ∃ g2, propagate_backward g1 = some g2 ∧
      (get_critical_tasks g2).Perm
        ((g2.filter (fun t => t.is_critical)).map (fun t => t.id)) ∧
      (∀ t : Task, t.is_critical = true ↔
        (t.early_start = t.late_start ∧ t.early_finish = t.late_finish)) ∧
      get_critical_tasks g2 = (criticalSorted g2).map (fun t => t.id) ∧
      List.Sorted (fun a b : Task => a.early_start ≤ b.early_start) (criticalSorted g2) ∧
      START_ID ∈ get_critical_tasks g2 ∧ END_ID ∈ get_critical_tasks g2 := by
  rcases pipeline_spec hb hf hmk with
    ⟨g2, hbw, ρ, hwf, hs1, hs2, hes1, hef1, hes2, hef2, hls2, hlf2, hEeq, hmk'⟩
  have hM : specEf g END_ID = specEs g END_ID := by
    have h1 : specEf g END_ID = specEs g END_ID + durOf g END_ID := rfl
    rw [hwf.durEnd] at h1
    omega
  have hmemcrit : ∀ w, w ∈ dom g →
      esOf g2 w = lsOf g2 w → efOf g2 w = lfOf g2 w → w ∈ get_critical_tasks g2 := by
    intro w hw hels helf
    have hwd2 : w ∈ dom g2 := by rw [hs2.1]; exact hw
    rcases mem_dom_iff.1 hwd2 with ⟨t, hget⟩
    have htes : t.early_start = esOf g2 w := by rw [esOf, hget]
    have htls : t.late_start = lsOf g2 w := by rw [lsOf, hget]
    have htef : t.early_finish = efOf g2 w := by rw [efOf, hget]
    have htlf : t.late_finish = lfOf g2 w := by rw [lfOf, hget]
    have hcrit : t.is_critical = true := by
      rw [is_critical_iff]
      rw [htes, htls, htef, htlf]
      exact ⟨hels, helf⟩
    rcases mapGet_id hget with ⟨hid, hmem⟩
    rw [get_critical_tasks]
    refine List.mem_map.2 ⟨t, ?_, hid⟩
    rw [criticalSorted]
    exact (sortByES_perm _).mem_iff.2 (List.mem_filter.2 ⟨hmem, hcrit⟩)
  refine ⟨g2, hbw, ?_, is_critical_iff, rfl, ?_, ?_, ?_⟩
  · exact (sortByES_perm _).map _
  · exact sortByES_sorted _
  · -- START is critical
    have hsc := start_critical hwf
    apply hmemcrit START_ID hwf.startMem
    · rw [hes2 START_ID hwf.startMem, hls2 START_ID hwf.startMem]
      exact hsc.1
    · rw [hef2 START_ID hwf.startMem, hlf2 START_ID hwf.startMem]
      exact hsc.2
  · -- END is critical
    apply hmemcrit END_ID hwf.endMem
    · rw [hes2 END_ID hwf.endMem, hls2 END_ID hwf.endMem, specLs_end hwf]
    · rw [hef2 END_ID hwf.endMem, hlf2 END_ID hwf.endMem, specLf_end hwf]
      exact hM

theorem C4_witness : buildValid? ["A 2"] = some gA ∧
    propagate_forward gA = some gA1 ∧ esOf gA1 END_ID ≤ u32Max ∧
    (∃ g2, propagate_backward gA1 = some g2 ∧
      (get_critical_tasks g2).Perm
        ((g2.filter (fun t => t.is_critical)).map (fun t => t.id)) ∧
      (∀ t : Task, t.is_critical = true ↔
        (t.early_start = t.late_start ∧ t.early_finish = t.late_finish)) ∧
      get_critical_tasks g2 = (criticalSorted g2).map (fun t => t.id) ∧
      List.Sorted (fun a b : Task => a.early_start ≤ b.early_start) (criticalSorted g2) ∧
      START_ID ∈ get_critical_tasks g2 ∧ END_ID ∈ get_critical_tasks g2) :=
  ⟨rfl, rfl, by decide, C4_critical_tasks ["A 2"] gA gA1 rfl rfl (by decide)⟩

/-! ### Failure modes of `add_entry` (C5) -/

/-- If some dependency in the processed list is absent from the registry,
the wiring loop panics. -/
theorem wireDeps_errOf : ∀ (ds : List String) (m : RCTaskMap) (t : Task),
    (∃ d ∈ ds, d ∉ dom m) → (wireDeps t ds m).isErr = true := by
  intro ds
  induction ds with
  | nil =>
      rintro m t ⟨d, hd, _⟩
      cases hd
  | cons d' ds ih =>
      rintro m t ⟨d, hd, hdm⟩
      rw [wireDeps]
      cases hg : mapGet m d' with
      | none => rfl
      | some dt =>
          rcases List.mem_cons.1 hd with rfl | hd2
          · exact absurd (mem_dom_iff.2 ⟨dt, hg⟩) hdm
          · show (wireDeps { t with pred := t.pred ++ [d'] } ds
              (mapModify m d' (fun x : Task =>
                { x with succ := x.succ ++ [t.id] }))).isErr = true
            apply ih
            refine ⟨d, hd2, ?_⟩
            have hdom1 : dom (mapModify m d' (fun x : Task =>
                { x with succ := x.succ ++ [t.id] })) = dom m := by
              apply dom_modify
              intro x
              rfl
            rw [hdom1]
            exact hdm

/-- **C5.** `add_entry` fails on a record whose identifier is already in
the registry, returning the panic message from the source and the whole
registry (hence the colliding identifier's entry) unchanged; it fails
when the duration field does not parse as a non-negative 32-bit integer;
and it fails when some entry of the dependency list is not already
present in the registry. -/
theorem C5_add_entry_failures (line : String) (m : RCTaskMap) (id dur : String) :
    ((splitStr ' ' line = [id, dur] ∨ (∃ depStr, splitStr ' ' line = [id, dur, depStr])) →
      id ∈ dom m → add_entry line m = .err "Duplicate IDs are not allowed." m) ∧
    ((splitStr ' ' line = [id, dur] ∨ (∃ depStr, splitStr ' ' line = [id, dur, depStr])) →
      parseU32 dur = none → (add_entry line m).isErr = true) ∧
    (∀ depStr, splitStr ' ' line = [id, dur, depStr] →
      (∃ d ∈ splitStr ',' depStr, d ∉ dom m) → (add_entry line m).isErr = true) := by
  refine ⟨?_, ?_, ?_⟩
  · intro hsh hid
    have hsome : (mapGet m id).isSome = true := mapGet_isSome_iff.2 hid
    rcases hsh with hsp | ⟨depStr, hsp⟩ <;> simp [add_entry, hsp, hsome]
  · intro hsh hpn
    by_cases hid : (mapGet m id).isSome = true <;>
      rcases hsh with hsp | ⟨depStr, hsp⟩ <;>
        simp [add_entry, hsp, hid, hpn, AddResult.isErr]
  · intro depStr hsp hex
    by_cases hid : (mapGet m id).isSome = true
    · simp [add_entry, hsp, hid, AddResult.isErr]
    · cases hp : parseU32 dur with
      | none => simp [add_entry, hsp, hid, hp, AddResult.isErr]
      | some duration =>
          have heq : add_entry line m =
              wireDeps (Task.new id duration) (dedup (splitStr ',' depStr)) m := by
            simp [add_entry, hsp, hid, hp]
          rw [heq]
          apply wireDeps_errOf
          rcases hex with ⟨d, hd, hdm⟩
          exact ⟨d, (dedup_mem _ d).2 hd, hdm⟩

theorem C5_witness :
    add_entry "A 3" mA = .err "Duplicate IDs are not allowed." mA ∧
    (add_entry "B x" mA).isErr = true ∧
    (add_entry "B 1 C" mA).isErr = true :=
  ⟨(C5_add_entry_failures "A 3" mA "A" "3").1 (Or.inl rfl) (by decide),
   (C5_add_entry_failures "B x" mA "B" "x").2.1 (Or.inl rfl) rfl,
   (C5_add_entry_failures "B 1 C" mA "B" "1").2.2 "C" rfl ⟨"C", by decide, by decide⟩⟩

/-! ### Symmetry of the predecessor/successor relation (C6) -/

/-- `add_start` restores the symmetric-edge invariant on the extended
registry. -/
theorem symEdges_add_start {m : RCTaskMap} (hpre : PreWF m)
    (hS : START_ID ∉ dom m) : SymEdges (add_start m) := by
  have hdom := (add_start_char m hS).1
  have hdomiff : ∀ v, v ∈ dom (add_start m) ↔ v ∈ dom m ∨ v = START_ID := by
    intro v
    rw [hdom]
    simp
  have hroots : ∀ v, v ∈ succOf (add_start m) START_ID ↔
      v ∈ dom m ∧ predOf m v = [] := by
    intro v
    rw [(add_start_fields hS).2.1, mem_filterMap_id hpre.nodup]
    constructor
    · rintro ⟨t, hg, hP⟩
      refine ⟨mem_dom_iff.2 ⟨t, hg⟩, ?_⟩
      rw [predOf, hg]
      simpa using hP
    · rintro ⟨hvm, hp⟩
      rcases mem_dom_iff.1 hvm with ⟨t, hg⟩
      refine ⟨t, hg, ?_⟩
      rw [predOf, hg] at hp
      simpa using hp
  intro u hu v hv
  rcases (hdomiff u).1 hu with hum | rfl
  · rcases (hdomiff v).1 hv with hvm | rfl
    · rw [(add_start_accessors hS v hvm).1, (add_start_accessors hS u hum).2.1]
      by_cases hpv : predOf m v = []
      · rw [if_pos hpv]
        constructor
        · intro h1
          rcases List.mem_singleton.1 h1 with rfl
          exact absurd hum hS
        · intro h1
          have h2 := (hpre.sym u hum v hvm).2 h1
          rw [hpv] at h2
          cases h2
      · rw [if_neg hpv]
        exact hpre.sym u hum v hvm
    · rw [(add_start_fields hS).1]
      constructor
      · intro h1
        cases h1
      · intro h1
        rw [(add_start_accessors hS u hum).2.1] at h1
        exact absurd (hpre.closedS u hum _ h1) hS
  · rcases (hdomiff v).1 hv with hvm | rfl
    · rw [(add_start_accessors hS v hvm).1, hroots v]
      by_cases hpv : predOf m v = []
      · rw [if_pos hpv]
        simp [hvm, hpv]
      · rw [if_neg hpv]
        constructor
        · intro h1
          exact absurd (hpre.closedP v hvm _ h1) hS
        · rintro ⟨_, h2⟩
          exact absurd h2 hpv
    · rw [(add_start_fields hS).1, hroots]
      constructor
      · intro h1
        cases h1
      · rintro ⟨h1, _⟩
        exact absurd h1 hS

/-- `add_end` restores the symmetric-edge invariant on the extended
registry. -/
theorem symEdges_add_end {m : RCTaskMap} (hpre : PreWF m)
    (hE : END_ID ∉ dom m) : SymEdges (add_end m) := by
  have hdom := (add_end_char m hE).1
  have hdomiff : ∀ v, v ∈ dom (add_end m) ↔ v ∈ dom m ∨ v = END_ID := by
    intro v
    rw [hdom]
    simp
  have hleaves : ∀ v, v ∈ predOf (add_end m) END_ID ↔
      v ∈ dom m ∧ succOf m v = [] := by
    intro v
    rw [(add_end_fields hE).2.1, mem_filterMap_id hpre.nodup]
    constructor
    · rintro ⟨t, hg, hP⟩
      refine ⟨mem_dom_iff.2 ⟨t, hg⟩, ?_⟩
      rw [succOf, hg]
      simpa using hP
    · rintro ⟨hvm, hp⟩
      rcases mem_dom_iff.1 hvm with ⟨t, hg⟩
      refine ⟨t, hg, ?_⟩
      rw [succOf, hg] at hp
      simpa using hp
  intro u hu v hv
  rcases (hdomiff u).1 hu with hum | rfl
  · rcases (hdomiff v).1 hv with hvm | rfl
    · rw [(add_end_accessors hE v hvm).2.1, (add_end_accessors hE u hum).1]
      by_cases hsu : succOf m u = []
      · rw [if_pos hsu]
        constructor
        · intro h1
          have h2 := (hpre.sym u hum v hvm).1 h1
          rw [hsu] at h2
          cases h2
        · intro h1
          rcases List.mem_singleton.1 h1 with rfl
          exact absurd hvm hE
      · rw [if_neg hsu]
        exact hpre.sym u hum v hvm
    · rw [hleaves u, (add_end_accessors hE u hum).1]
      by_cases hsu : succOf m u = []
      · rw [if_pos hsu]
        simp [hum, hsu]
      · rw [if_neg hsu]
        constructor
        · rintro ⟨_, h2⟩
          exact absurd h2 hsu
        · intro h1
          exact absurd (hpre.closedS u hum _ h1) hE
  · rcases (hdomiff v).1 hv with hvm | rfl
    · rw [(add_end_accessors hE v hvm).2.1, (add_end_fields hE).1]
      constructor
      · intro h1
        exact absurd (hpre.closedP v hvm _ h1) hE
      · intro h1
        cases h1
    · rw [hleaves, (add_end_fields hE).1]
      constructor
      · rintro ⟨h1, _⟩
        exact absurd h1 hE
      · intro h1
        cases h1

/-- **C6.** From any registry satisfying the builder invariant (in
particular, edge symmetry), each mutating operation yields a registry
whose predecessor/successor relation is again symmetric: `add_entry` on
success, and `add_start`/`add_end` whenever the anchor identifier is not
already taken (spec section 6 requires rejecting that collision). -/
theorem C6_symmetric_edges (m : RCTaskMap) (hpre : PreWF m) :
    SymEdges m ∧
    (∀ line m', add_entry line m = .ok m' → SymEdges m') ∧
    (START_ID ∉ dom m → SymEdges (add_start m)) ∧
    (END_ID ∉ dom m → SymEdges (add_end m)) := by
  refine ⟨hpre.sym, ?_, ?_, ?_⟩
  · intro line m' h
    exact (preWF_add_entry hpre h).sym
  · intro hS
    exact symEdges_add_start hpre hS
  · intro hE
    exact symEdges_add_end hpre hE

theorem C6_witness : SymEdges mA ∧ SymEdges mB ∧
    SymEdges (add_start mA) ∧ SymEdges (add_end mA) := by
  have hpre : PreWF mA :=
    ⟨by decide, by decide, by decide, by decide, by decide, by decide⟩
  have h := C6_symmetric_edges mA hpre
  exact ⟨h.1, h.2.1 "B 1 A" mB rfl, h.2.2.1 (by decide), h.2.2.2 (by decide)⟩

/-! ### Anchor collisions are silently overwritten (C8) -/

/-- **C8.** When the registry already contains a real task named `START`
(resp. `END`), anchor injection does not reject the collision: it
proceeds, and `map.insert` silently replaces the real task's entry with
the zero-duration anchor.  Here the real task `START 5` is accepted by
`add_entry`; after `add_start` its registry entry has duration 0 and even
lists `START` as its own successor (the zero-pred real task was wired to
the anchor before being overwritten).  Likewise for `END 7`/`add_end`.
No failure value is produced at any point. -/
theorem C8_anchor_collision :
    (∃ m1, add_entry "START 5" [] = .ok m1 ∧ durOf m1 START_ID = 5 ∧
      durOf (add_start m1) START_ID = 0 ∧
      succOf (add_start m1) START_ID = [START_ID] ∧
      dom (add_start m1) = [START_ID]) ∧
    (∃ m2, add_entry "END 7" [] = .ok m2 ∧ durOf m2 END_ID = 7 ∧
      durOf (add_end m2) END_ID = 0 ∧
      predOf (add_end m2) END_ID = [END_ID] ∧
      dom (add_end m2) = [END_ID]) :=
  ⟨⟨(add_entry "START 5" []).getOk, rfl, rfl, rfl, rfl, rfl⟩,
   ⟨(add_entry "END 7" []).getOk, rfl, rfl, rfl, rfl, rfl⟩⟩

/-! ### `add_entry` is not atomic on unknown-dependency failure (C10) -/

/-- If the processed dependency list is `pre ++ bad :: post` with every
identifier of `pre` present and `bad` absent, the wiring loop panics at
`bad`, and in the registry state at that moment every task of `pre`
already lists the new task among its successors. -/
theorem wireDeps_err_mid : ∀ (pre : List String) (bad : String) (post : List String)
    (m : RCTaskMap) (t : Task),
    (∀ d ∈ pre, d ∈ dom m) → bad ∉ dom m → t.id ∉ dom m →
    ∃ m', wireDeps t (pre ++ bad :: post) m = .err "Invalid task in dependency list." m' ∧
      dom m' = dom m ∧
      (∀ v, ∃ l, succOf m' v = succOf m v ++ l) ∧
      (∀ d ∈ pre, t.id ∈ succOf m' d) := by
  intro pre
  induction pre with
  | nil =>
      intro bad post m t _ hbad _
      refine ⟨m, ?_, rfl, fun v => ⟨[], by simp⟩, fun d hd => absurd hd (by simp)⟩
      rw [List.nil_append, wireDeps, mapGet_eq_none_iff.2 hbad]
  | cons d pre ih =>
      intro bad post m t hpre hbad htid
      have hdm : d ∈ dom m := hpre d (List.mem_cons_self d pre)
      rcases mem_dom_iff.1 hdm with ⟨dt, hg⟩
      have hidp : ∀ x : Task,
          ((fun x : Task => { x with succ := x.succ ++ [t.id] }) x).id = x.id :=
        fun x => rfl
      have hdom1 : dom (mapModify m d (fun x : Task =>
          { x with succ := x.succ ++ [t.id] })) = dom m := dom_modify hidp
      rcases ih bad post
          (mapModify m d (fun x : Task => { x with succ := x.succ ++ [t.id] }))
          { t with pred := t.pred ++ [d] }
          (fun d' hd' => by rw [hdom1]; exact hpre d' (List.mem_cons_of_mem _ hd'))
          (by rw [hdom1]; exact hbad)
          (by rw [hdom1]; exact htid) with
        ⟨m', herr, hdom', hext, hmem⟩
      have hsucc_d : succOf (mapModify m d (fun x : Task =>
          { x with succ := x.succ ++ [t.id] })) d = succOf m d ++ [t.id] := by
        rw [succOf, mapGet_modify hidp, if_pos rfl, hg, succOf, hg]
        rfl
      have hsucc_ne : ∀ v, v ≠ d → succOf (mapModify m d (fun x : Task =>
          { x with succ := x.succ ++ [t.id] })) v = succOf m v := by
        intro v hvd
        rw [succOf, mapGet_modify hidp, if_neg hvd, succOf]
      refine ⟨m', ?_, by rw [hdom', hdom1], ?_, ?_⟩
      · rw [List.cons_append, wireDeps, hg]
        exact herr
      · intro v
        rcases hext v with ⟨l, hl⟩
        by_cases hvd : v = d
        · subst hvd
          refine ⟨[t.id] ++ l, ?_⟩
          rw [hl, hsucc_d, List.append_assoc]
        · refine ⟨l, ?_⟩
          rw [hl, hsucc_ne v hvd]
      · intro d' hd'
        rcases List.mem_cons.1 hd' with rfl | hd2
        · rcases hext d' with ⟨l, hl⟩
          rw [hl, hsucc_d]
          simp
        · exact hmem d' hd2

/-- **C10.** `add_entry` mutates the registry before all validations are
complete: if the deduplicated dependency list splits as
`pre ++ bad :: post` with every identifier of `pre` registered and `bad`
unknown, the call fails (panics in the source), yet in the registry state
at the moment of failure every dependency in `pre` already lists the new
identifier among its successors, while the new task itself was never
inserted. -/
theorem C10_nonatomic_failure (line : String) (m : RCTaskMap)
    (id dur depStr : String) (pre post : List String) (bad : String)
    (hsp : splitStr ' ' line = [id, dur, depStr])
    (hfresh : id ∉ dom m) (duration : Nat) (hdur : parseU32 dur = some duration)
    (hded : dedup (splitStr ',' depStr) = pre ++ bad :: post)
    (hpre : ∀ d ∈ pre, d ∈ dom m) (hbad : bad ∉ dom m) :
    ∃ m', add_entry line m = .err "Invalid task in dependency list." m' ∧
      (∀ d ∈ pre, id ∈ succOf m' d) ∧ id ∉ dom m' := by
  have hid : ¬ ((mapGet m id).isSome = true) :=
    fun h => hfresh (mapGet_isSome_iff.1 h)
  have heq : add_entry line m =
      wireDeps (Task.new id duration) (dedup (splitStr ',' depStr)) m := by
    simp [add_entry, hsp, hid, hdur]
  rcases wireDeps_err_mid pre bad post m (Task.new id duration) hpre hbad hfresh with
    ⟨m', herr, hdom', _, hmem⟩
  refine ⟨m', ?_, hmem, ?_⟩
  · rw [heq, hded]
    exact herr
  · rw [hdom']
    exact hfresh

theorem C10_witness : ∃ m',
    add_entry "C 1 A,B" mA = .err "Invalid task in dependency list." m' ∧
    (∀ d ∈ ["A"], "C" ∈ succOf m' d) ∧ "C" ∉ dom m' :=
  C10_nonatomic_failure "C 1 A,B" mA "C" "1" "A,B" ["A"] [] "B" rfl (by decide) 1
    rfl rfl (by decide) (by decide)

end PDM
